import Mathlib

/-!
Verification development for the Hermes IR core (`lib/IR/IR.cpp`).

The use-def machinery is embedded shallowly: a `Value` is named by a `Nat`
identifier, every value carries a user list (`Users` in the source), and every
instruction carries an ordered operand list of `Use` slots.  A `Use` is the
pair `(producer, index-into-producer's-user-list)`; a null producer models the
C++ `nullptr` sentinel.  Fallible code (assertions, `llvm_unreachable`) is
modelled with `Option`: `none` means the C++ would have failed loudly.
-/


/-- A use edge: `(producer, slot in producer's user list)`.  The producer is
`none` for the null sentinel, in which case the source stores index 0. -/
abbrev IRUse := Option Nat × Nat

/-- The use-def portion of a module: per-value user lists and per-value operand
lists, both indexed by value id.  Non-instruction values simply keep an empty
operand list forever. -/
structure IRState where
  users : List (List Nat)
  operands : List (List IRUse)
deriving DecidableEq, Repr

/-- `Value::getUsers()`. -/
def getUsers (s : IRState) (v : Nat) : List Nat :=
  (s.users[v]?).getD []

/-- The operand vector of instruction `i` (`Instruction::Operands`). -/
def getOperands (s : IRState) (i : Nat) : List IRUse :=
  (s.operands[i]?).getD []

def setUsers (s : IRState) (v : Nat) (l : List Nat) : IRState :=
  { s with users := s.users.set v l }

def setOperands (s : IRState) (i : Nat) (l : List IRUse) : IRState :=
  { s with operands := s.operands.set i l }

/-- First index whose element satisfies `p` (the linear scans in the source). -/
def findIdxP (p : α → Bool) : List α → Option Nat
  | [] => none
  | a :: l => if p a then some 0 else (findIdxP p l).map (· + 1)

/-- Number of occurrences of slot content `c` in an operand list. -/
def countSlot : List IRUse → IRUse → Nat
  | [], _ => 0
  | a :: l, c => (if a = c then 1 else 0) + countSlot l c

/-- Number of slots whose producer is `a`. -/
def countProd : List (Option Nat) → Option Nat → Nat
  | [], _ => 0
  | b :: l, a => (if b = a then 1 else 0) + countProd l a

/-- Bounded universal Bool quantifier, for the executable invariant check. -/
def natAll : Nat → (Nat → Bool) → Bool
  | 0, _ => true
  | n + 1, p => natAll n p && p n

/-- Sum of `f 0 + ... + f (n-1)`. -/
def sumTo : Nat → (Nat → Nat) → Nat
  | 0, _ => 0
  | n + 1, f => sumTo n f + f n

/-- The producers of the operand slots of instruction `i`. -/
def producersOf (s : IRState) (i : Nat) : List (Option Nat) :=
  (getOperands s i).map Prod.fst

/-- Total number of operand slots in the module whose producer is value `v`. -/
def vSlotCount (s : IRState) (v : Nat) : Nat :=
  sumTo s.operands.length (fun i => countProd (producersOf s i) (some v))

/-- `Value::removeUse(U)` where `U = (v, idx)`: swap-with-last removal from
`v`'s user list; if a user was moved into the vacated slot, patch that user's
operand entry `(v, lastIndex)` to `(v, idx)`.  Returns `none` where the C++
asserts or reaches `llvm_unreachable`. -/
def removeUse (s : IRState) (v idx : Nat) : Option IRState :=
  match (getUsers s v).getLast? with
  | none => none
  | some lastU =>
    let us := getUsers s v
    let s' := setUsers s v ((us.set idx lastU).dropLast)
    if idx = us.length - 1 then some s'
    else
      match findIdxP (fun u => u = ((some v, us.length - 1) : IRUse)) (getOperands s' lastU) with
      | none => none
      | some i =>
        some (setOperands s' lastU ((getOperands s' lastU).set i (some v, idx)))

/-- `Instruction::setOperand(Val, Index)`.  The guard `s1.users[w]?` embeds the
requirement that the new operand is a value of this module (a live `Value *`);
`canSetOperand` is an opcode-table assertion outside this core and is not
modelled. -/
def setOperand (s : IRState) (inst : Nat) (val : Option Nat) (index : Nat) : Option IRState :=
  match (getOperands s inst)[index]? with
  | none => none
  | some cur =>
    if cur.1 = val then some s
    else
      match (match cur.1 with
             | some cv => removeUse s cv cur.2
             | none => some s) with
      | none => none
      | some s1 =>
        match val with
        | some w =>
          match s1.users[w]? with
          | none => none
          | some wUsers =>
            let s2 := setUsers s1 w (wUsers ++ [inst])
            some (setOperands s2 inst ((getOperands s2 inst).set index (some w, wUsers.length)))
        | none => some (setOperands s1 inst ((getOperands s1 inst).set index (none, 0)))

/-- `Instruction::pushOperand(Val)`. -/
def pushOperand (s : IRState) (inst : Nat) (val : Option Nat) : Option IRState :=
  let ops := getOperands s inst
  setOperand (setOperands s inst (ops ++ [(none, 0)])) inst val ops.length

/-- `Instruction::removeOperand(index)`. -/
def removeOperand (s : IRState) (inst index : Nat) : Option IRState :=
  (setOperand s inst none index).map (fun s1 =>
    setOperands s1 inst ((getOperands s1 inst).eraseIdx index))

/-- `Instruction::replaceFirstOperandWith(OldValue, NewValue)`. -/
def replaceFirstOperandWith (s : IRState) (inst : Nat) (oldV newV : Option Nat) :
    Option IRState :=
  match findIdxP (fun u => u.1 = oldV) (getOperands s inst) with
  | none => none
  | some i => setOperand s inst newV i

/-- The scan of `Instruction::eraseOperand`: null out, slot by slot, every
operand whose producer is `v`. -/
def nullOutV (inst v : Nat) : List Nat → IRState → Option IRState
  | [], s => some s
  | i :: is, s =>
    if ((getOperands s inst)[i]?.getD (none, 0)).1 = some v then
      match setOperand s inst none i with
      | some s1 => nullOutV inst v is s1
      | none => none
    else nullOutV inst v is s

/-- `Instruction::eraseOperand(Value)`: null out every slot referencing `v`,
compact the operand vector, then assert `!v.hasUser(inst)`. -/
def eraseOperand (s : IRState) (inst v : Nat) : Option IRState :=
  match nullOutV inst v (List.range (getOperands s inst).length) s with
  | none => none
  | some s1 =>
    let s2 := setOperands s1 inst ((getOperands s1 inst).filter (fun u => !(u.1 = none : Bool)))
    if (getUsers s2 v).contains inst then none else some s2

/-- The `while (Users.size())` loop of `Value::replaceAllUsesWith`.  The fuel
is a termination variant for the source's unbounded loop; exhaustion with a
nonempty user list answers `none`. -/
def rauwLoop (v : Nat) (other : Option Nat) : Nat → IRState → Option IRState
  | 0, s => if (getUsers s v).getLast? = none then some s else none
  | fuel + 1, s =>
    match (getUsers s v).getLast? with
    | none => some s
    | some u0 =>
      match replaceFirstOperandWith s u0 (some v) other with
      | some s1 => rauwLoop v other fuel s1
      | none => none

/-- `Value::replaceAllUsesWith(Other)`.  The fuel `vSlotCount s v` (the number
of operand slots currently referencing `v`) suffices for any consistent state. -/
def replaceAllUsesWith (s : IRState) (v : Nat) (other : Option Nat) : Option IRState :=
  if other = some v then some s
  else rauwLoop v other (vSlotCount s v) s

/-- The `while (Users.size())` loop of `Value::removeAllUses`. -/
def removeAllLoop (v : Nat) : Nat → IRState → Option IRState
  | 0, s => if (getUsers s v).getLast? = none then some s else none
  | fuel + 1, s =>
    match (getUsers s v).getLast? with
    | none => some s
    | some u0 =>
      match eraseOperand s u0 v with
      | some s1 => removeAllLoop v fuel s1
      | none => none

/-- `Value::removeAllUses()`. -/
def removeAllUses (s : IRState) (v : Nat) : Option IRState :=
  removeAllLoop v (getUsers s v).length s

/-- One public operand-list operation, as named in the source. -/
inductive IROp
  | push (inst : Nat) (val : Option Nat)
  | set (inst : Nat) (val : Option Nat) (index : Nat)
  | remove (inst : Nat) (index : Nat)
  | replaceFirst (inst : Nat) (oldV newV : Option Nat)
  | erase (inst v : Nat)
  | rauw (v : Nat) (other : Option Nat)
  | removeAll (v : Nat)
deriving DecidableEq, Repr

def applyOp (s : IRState) : IROp → Option IRState
  | .push inst val => pushOperand s inst val
  | .set inst val index => setOperand s inst val index
  | .remove inst index => removeOperand s inst index
  | .replaceFirst inst oldV newV => replaceFirstOperandWith s inst oldV newV
  | .erase inst v => eraseOperand s inst v
  | .rauw v other => replaceAllUsesWith s v other
  | .removeAll v => removeAllUses s v

def applyOps (s : IRState) : List IROp → Option IRState
  | [] => some s
  | op :: ops =>
    match applyOp s op with
    | some s1 => applyOps s1 ops
    | none => none

/-! ### The bidirectional use-def invariant (Invariant 1 of the spec) -/

/-- Bidirectional use-def consistency: every non-null operand slot `(p, j)` of
an instruction `inst` is mirrored by `p.users[j] = inst`, and every user-list
entry is mirrored by exactly one operand slot. -/
structure Wf (s : IRState) : Prop where
  fwd : ∀ {inst k p j : Nat}, (getOperands s inst)[k]? = some ((some p, j) : IRUse) →
    (getUsers s p)[j]? = some inst
  bwd : ∀ {p j inst : Nat}, (getUsers s p)[j]? = some inst →
    ∃! k : Nat, (getOperands s inst)[k]? = some ((some p, j) : IRUse)

/-- Forward consistency with one exempt (stale) slot `(i0, k0)`. -/
def FwdE (s : IRState) (i0 k0 : Nat) : Prop :=
  ∀ inst k p j : Nat, (getOperands s inst)[k]? = some ((some p, j) : IRUse) →
    ¬(inst = i0 ∧ k = k0) → (getUsers s p)[j]? = some inst

/-- Backward consistency where the slot `(i0, k0)` does not count. -/
def BwdE (s : IRState) (i0 k0 : Nat) : Prop :=
  ∀ p j inst : Nat, (getUsers s p)[j]? = some inst →
    ∃! k : Nat, (getOperands s inst)[k]? = some ((some p, j) : IRUse) ∧ ¬(inst = i0 ∧ k = k0)

/-- Executable check of the invariant, for concrete witnesses. -/
def checkWf (s : IRState) : Bool :=
  natAll s.operands.length (fun i =>
    natAll (getOperands s i).length (fun k =>
      match (getOperands s i)[k]? with
      | some (some p, j) => (getUsers s p)[j]? == some i
      | _ => true))
  && natAll s.users.length (fun p =>
    natAll (getUsers s p).length (fun j =>
      match (getUsers s p)[j]? with
      | some i => countSlot (getOperands s i) (some p, j) == 1
      | none => true))

/-! ### Specification of `Value::removeUse` -/

/-- Effects of `removeUse (v, idx)` called while the slot `(i0, k0)` holds the
use `(v, idx)` (the caller `setOperand` is about to overwrite that slot): the
invariant holds except at the stale slot, `v` loses exactly one user-list
entry, no operand producer changes, and in the swap case the moved user's
operand entry `(v, lastIndex)` has been patched to `(v, idx)`. -/
structure RemoveUseOut (s s' : IRState) (i0 k0 v idx : Nat) : Prop where
  fwdE : FwdE s' i0 k0
  bwdE : BwdE s' i0 k0
  stale : (getOperands s' i0)[k0]? = some ((some v, idx) : IRUse)
  usersLen : s'.users.length = s.users.length
  operandsLen : s'.operands.length = s.operands.length
  producers : ∀ i, producersOf s' i = producersOf s i
  usersOther : ∀ p, p ≠ v → getUsers s' p = getUsers s p
  usersV : ∀ lastU, (getUsers s v).getLast? = some lastU →
    getUsers s' v = ((getUsers s v).set idx lastU).dropLast
  patch :
    (idx = (getUsers s v).length - 1 ∧ ∀ i, getOperands s' i = getOperands s i) ∨
    (idx ≠ (getUsers s v).length - 1 ∧ ∃ moved kstar : Nat,
      (getUsers s v).getLast? = some moved ∧
      (getOperands s moved)[kstar]? = some ((some v, (getUsers s v).length - 1) : IRUse) ∧
      getOperands s' moved = (getOperands s moved).set kstar (some v, idx) ∧
      (∀ i, i ≠ moved → getOperands s' i = getOperands s i) ∧
      (getUsers s' v)[idx]? = some moved)

/-! ### Specification of `Instruction::setOperand` -/

/-- Effects of a successful `setOperand`: the invariant is preserved, lengths
are unchanged, and the only producer change is slot `index` of `inst`. -/
structure SetOperandOut (s s' : IRState) (inst : Nat) (val : Option Nat) (index : Nat) :
    Prop where
  wf : Wf s'
  usersLen : s'.users.length = s.users.length
  operandsLen : s'.operands.length = s.operands.length
  producers : ∀ i, producersOf s' i =
    if i = inst then (producersOf s inst).set index val else producersOf s i

/-- Substitute producer `some v` by `other` (the effect of a complete RAUW on
one producer list). -/
def mapSubst (v : Nat) (other : Option Nat) (l : List (Option Nat)) : List (Option Nat) :=
  l.map (fun p => if p = some v then other else p)

/-! ### Cascade erase of a BasicBlock (`BasicBlock::eraseFromParent`) -/

/-- The operand-nulling loop of `Instruction::eraseFromParent`. -/
def setAllNull (inst : Nat) : List Nat → IRState → Option IRState
  | [], s => some s
  | i :: is, s =>
    match setOperand s inst none i with
    | some s1 => setAllNull inst is s1
    | none => none

/-- `Instruction::eraseFromParent`, restricted to its use-def effect: release
every operand, then the instruction is unlinked from its block's list. -/
def instEraseOps (s : IRState) (inst : Nat) : Option IRState :=
  setAllNull inst (List.range (getOperands s inst).length) s

/-- `BasicBlock::eraseFromParent` on a block `bb` whose instruction list is
`insts`: drain head-first (`replaceAllUsesWith nullptr`, then erase the head),
finally assert that the block itself has no users left. -/
def drainBlock (bb : Nat) : List Nat → IRState → Option IRState
  | [], s => if getUsers s bb = [] then some s else none
  | h :: rest, s =>
    match replaceAllUsesWith s h none with
    | none => none
    | some s1 =>
      match instEraseOps s1 h with
      | none => none
      | some s2 => drainBlock bb rest s2

/-- No operand slot anywhere references value `x`. -/
def NoRef (s : IRState) (x : Nat) : Prop :=
  ∀ i : Nat, some x ∉ producersOf s i

/-! ### Unique internal name derivation (`stripInternalNameSuffix`,
`Module::deriveUniqueInternalName`) -/

def isDigitChar (c : Char) : Bool := '0' ≤ c && c ≤ '9'

/-- The digit-consuming tail of `stripInternalNameSuffix`: walking the
reversed remainder (after the trailing `#` and one checked digit), consume
digits while possible, then require a space; returns the stripped base. -/
def stripDigitsSpace : List Char → Option (List Char)
  | [] => none
  | c :: rest =>
    if isDigitChar c then stripDigitsSpace rest
    else if c = ' ' then some rest.reverse
    else none

/-- `stripInternalNameSuffix`: strip a trailing `" <digits>#"` when the whole
tail has exactly that shape, else return the name unchanged. -/
def stripInternalNameSuffix (s : List Char) : List Char :=
  match s.reverse with
  | c :: d :: rest =>
    if c = '#' ∧ 3 ≤ s.length ∧ isDigitChar d then
      match stripDigitsSpace rest with
      | some pre => pre
      | none => s
    else s
  | _ => s

def digitChar : Nat → Char
  | 0 => '0'
  | 1 => '1'
  | 2 => '2'
  | 3 => '3'
  | 4 => '4'
  | 5 => '5'
  | 6 => '6'
  | 7 => '7'
  | 8 => '8'
  | _ => '9'

def natToDecimalGo : Nat → Nat → List Char
  | 0, _ => []
  | fuel + 1, n =>
    if n < 10 then [digitChar n]
    else natToDecimalGo fuel (n / 10) ++ [digitChar (n % 10)]

/-- Decimal rendering of an unsigned counter (the `snprintf "%u"` step). -/
def natToDecimal (n : Nat) : List Char := natToDecimalGo (n + 1) n

def charVal (c : Char) : Nat := c.toNat - '0'.toNat

def decVal (l : List Char) : Nat := l.foldl (fun acc c => acc * 10 + charVal c) 0

/-- The Module's `internalNamesMap_`, an association list from base name to
the number of internal names already derived from it. -/
abbrev NameMap := List (List Char × Nat)

def nmLookup : NameMap → List Char → Option Nat
  | [], _ => none
  | (k, c) :: m, key => if k = key then some c else nmLookup m key

def nmBump : NameMap → List Char → NameMap
  | [], _ => []
  | (k, c) :: m, key =>
    if k = key then (k, c + 1) :: nmBump m key else (k, c) :: nmBump m key

/-- `Module::deriveUniqueInternalName`: strip the suffix, then `try_emplace`
with counter 0 (returning the base as-is when fresh) or bump the stored
counter and append `" <counter>#"`. -/
def deriveUniqueInternalName (m : NameMap) (originalName : List Char) :
    NameMap × List Char :=
  let base := stripInternalNameSuffix originalName
  match nmLookup m base with
  | none => ((base, 0) :: m, base)
  | some c => (nmBump m base, base ++ ' ' :: (natToDecimal (c + 1) ++ ['#']))

/-- Derivation of a whole request sequence within one Module. -/
def deriveSeq (m : NameMap) : List (List Char) → NameMap × List (List Char)
  | [] => (m, [])
  | r :: rs =>
    let p := deriveUniqueInternalName m r
    let q := deriveSeq p.1 rs
    (q.1, p.2 :: q.2)

/-- Classification of an already-emitted internal name relative to the current
counter map: either a fresh base (recorded in the map, with no strippable
suffix) or a generated `base ++ " c#"` with `c` at most the stored counter. -/
def EmClass (m : NameMap) (o : List Char) : Prop :=
  (stripInternalNameSuffix o = o ∧ nmLookup m o ≠ none) ∨
  (∃ b c cb : _, nmLookup m b = some cb ∧ 1 ≤ c ∧ c ≤ cb ∧
    o = b ++ ' ' :: (natToDecimal c ++ ['#']))

/-! ### Literal interning (`Module::getLiteralNumber` / `getLiteralString` /
`getLiteralBool`) -/

/-- The Module's literal tables.  Doubles are represented by their 64-bit
pattern (modelled from the spec: `LiteralNumber::Profile` keys the folding set
on the bitwise representation of the double, so `-0.0` and `+0.0` differ);
strings by their interned `Identifier`; objects by allocation ids. -/
structure LitState where
  numbers : List (Nat × Nat)
  strings : List (Nat × Nat)
  nextId : Nat
deriving DecidableEq, Repr

def litLookup : List (Nat × Nat) → Nat → Option Nat
  | [], _ => none
  | (k, v) :: t, key => if k = key then some v else litLookup t key

/-- The two Module-resident boolean literal objects (`literalTrue`,
`literalFalse`). -/
def literalTrueId : Nat := 0

def literalFalseId : Nat := 1

def initLitState : LitState := ⟨[], [], 2⟩

/-- `Module::getLiteralNumber`: find the interned literal for this bit
pattern, or allocate a fresh one. -/
def getLiteralNumber (s : LitState) (bits : Nat) : LitState × Nat :=
  match litLookup s.numbers bits with
  | some v => (s, v)
  | none =>
    ({ s with numbers := (bits, s.nextId) :: s.numbers, nextId := s.nextId + 1 }, s.nextId)

/-- `Module::getLiteralString`, keyed on the interned identifier. -/
def getLiteralString (s : LitState) (ident : Nat) : LitState × Nat :=
  match litLookup s.strings ident with
  | some v => (s, v)
  | none =>
    ({ s with strings := (ident, s.nextId) :: s.strings, nextId := s.nextId + 1 }, s.nextId)

/-- `Module::getLiteralBool`: one of the two Module-resident singletons. -/
def getLiteralBool (b : Bool) : Nat :=
  if b then literalTrueId else literalFalseId

/-- States a Module's literal tables can be in. -/
inductive LitReachable : LitState → Prop
  | init : LitReachable initLitState
  | num {s : LitState} (bits : Nat) : LitReachable s → LitReachable (getLiteralNumber s bits).1
  | str {s : LitState} (ident : Nat) : LitReachable s → LitReachable (getLiteralString s ident).1

structure WfLit (s : LitState) : Prop where
  numIds : ∀ e ∈ s.numbers, e.2 < s.nextId
  strIds : ∀ e ∈ s.strings, e.2 < s.nextId
  numInj : ∀ e ∈ s.numbers, ∀ e' ∈ s.numbers, e.2 = e'.2 → e.1 = e'.1
  strInj : ∀ e ∈ s.strings, ∀ e' ∈ s.strings, e.2 = e'.2 → e.1 = e'.1
  numFun : ∀ e ∈ s.numbers, litLookup s.numbers e.1 = some e.2
  strFun : ∀ e ∈ s.strings, litLookup s.strings e.1 = some e.2

/-! ### `Type::print` over the TypeKind bitmask lattice -/

/-- Modelled from the spec: the closed `TypeKind` enumeration (defined in
`IR.h`, outside `src/`) is abstracted by its size `lastType` (`LAST_TYPE`),
the positions of the `Object`, `Closure` and `RegExp` kinds, and the kind
names (`getKindStr`). -/
structure TypeInfo where
  lastType : Nat
  objectIdx : Nat
  closureIdx : Nat
  regexpIdx : Nat
  kindStr : Nat → List Char

/-- Modelled from the spec: `Type::isClosureType` is a bit test (`IR.h`). -/
def isClosureType (info : TypeInfo) (bm : Nat) : Bool := bm.testBit info.closureIdx

/-- Modelled from the spec: `Type::isRegExpType` is a bit test (`IR.h`). -/
def isRegExpType (info : TypeInfo) (bm : Nat) : Bool := bm.testBit info.regexpIdx

/-- The Object annotation is suppressed when the closure or regex bit is set. -/
def typeSuppressed (info : TypeInfo) (bm : Nat) (i : Nat) : Bool :=
  i == info.objectIdx && (isClosureType info bm || isRegExpType info bm)

/-- The printing loop of `Type::print`, with its `first` flag and output
accumulator. -/
def typePrintGo (info : TypeInfo) (bm : Nat) : List Nat → Bool → List Char → List Char
  | [], _, acc => acc
  | i :: is, first, acc =>
    if typeSuppressed info bm i then typePrintGo info bm is first acc
    else if bm.testBit i then
      typePrintGo info bm is false (acc ++ (if first then [] else ['|']) ++ info.kindStr i)
    else typePrintGo info bm is first acc

/-- `Type::print`. -/
def typePrint (info : TypeInfo) (bm : Nat) : List Char :=
  typePrintGo info bm (List.range info.lastType) true []

/-- The kinds that `Type::print` emits, in enumeration order. -/
def printedKinds (info : TypeInfo) (bm : Nat) : List Nat :=
  (List.range info.lastType).filter (fun i => bm.testBit i && !typeSuppressed info bm i)

/-- `|`-separated rendering of a list of kind names. -/
def barJoin : List (List Char) → List Char
  | [] => []
  | [x] => x
  | x :: y :: t => x ++ '|' :: barJoin (y :: t)

def barTail : List (List Char) → List Char
  | [] => []
  | nm :: t => '|' :: (nm ++ barTail t)

/-! ### `Module::populateCJSModuleUseGraph` / `Module::getFunctionsInSegment` -/

/-- One edge `g → f` of the function-use graph: `f` is a function of the
module and some user instruction of `f` lives in function `g` (the user's
parent block's parent function). -/
def useEdge (functions : List Nat) (fnUsers : Nat → List Nat)
    (instParentFn : Nat → Nat) (g f : Nat) : Prop :=
  f ∈ functions ∧ ∃ u ∈ fnUsers f, instParentFn u = g

/-- The adjacency produced by `populateCJSModuleUseGraph`: the set of
functions `f` used from within `g`. -/
def adjOf (functions : List Nat) (fnUsers : Nat → List Nat)
    (instParentFn : Nat → Nat) (g : Nat) : List Nat :=
  functions.filter (fun f => (fnUsers f).any (fun u => instParentFn u == g))

/-- `llvm::SetVector::insert` on the worklist: prepend unless present (the
head plays the role of the vector's back, which `pop_back` removes first). -/
def svInsert (wl : List Nat) (x : Nat) : List Nat :=
  if x ∈ wl then wl else x :: wl

def svInsertAll (wl : List Nat) (xs : List Nat) : List Nat :=
  xs.foldl svInsert wl

/-- The worklist loop of `getFunctionsInSegment`: pop, skip if already in the
result, else add to the result and push all out-edge targets. -/
def segLoop (adj : Nat → List Nat) : Nat → List Nat → List Nat → List Nat
  | _, result, [] => result
  | 0, result, _ :: _ => result
  | fuel + 1, result, cur :: wl =>
    if cur ∈ result then segLoop adj fuel result wl
    else segLoop adj fuel (result ++ [cur]) (svInsertAll wl (adj cur))

/-- `Module::getFunctionsInSegment` for the inclusive range `[first, last]` of
CJS module indices, over the module data `functions` (the function list),
`fnUsers` (each function's user instructions), `instParentFn` (each
instruction's parent function) and `cjsModules` (the wrapper function of each
CJS module).  The fuel bounds the worklist iterations; it is sufficient for
the loop to drain. -/
def getFunctionsInSegment (functions : List Nat) (fnUsers : Nat → List Nat)
    (instParentFn : Nat → Nat) (cjsModules : List Nat) (first last : Nat) : List Nat :=
  let adj := adjOf functions fnUsers instParentFn
  let roots := svInsertAll []
    ((List.range' first (last + 1 - first)).map (fun i => (cjsModules[i]?).getD 0))
  let n := (roots ++ functions).dedup.length
  segLoop adj ((n + 1) * (n + 1)) [] roots

/-! ### `Instruction::moveBefore` -/

/-- The CFG layout around the use-def core: per-block instruction lists and
each instruction's parent block. -/
structure CFGState where
  ir : IRState
  instLists : List (List Nat)
  parentOf : List Nat

/-- `InstList.insert(Later->getIterator(), this)`: place `inst` immediately
before the first occurrence of `later` (at the end when `later` is absent,
the list's `end()` iterator). -/
def insertBeforeIn : List Nat → Nat → Nat → List Nat
  | [], _, inst => [inst]
  | x :: xs, later, inst =>
    if x = later then inst :: x :: xs else x :: insertBeforeIn xs later inst

/-- `Instruction::moveBefore`: return unchanged when moving before itself;
otherwise unlink from the current parent's list, insert before `later` in
`later`'s parent's list, and reparent. -/
def moveBefore (s : CFGState) (inst later : Nat) : CFGState :=
  if inst = later then s
  else
    let bp := (s.parentOf[inst]?).getD 0
    let blp := (s.parentOf[later]?).getD 0
    let s1 : CFGState :=
      { s with instLists := s.instLists.set bp (((s.instLists[bp]?).getD []).erase inst) }
    let s2 : CFGState :=
      { s1 with instLists :=
          s1.instLists.set blp (insertBeforeIn ((s1.instLists[blp]?).getD []) later inst) }
    { s2 with parentOf := s2.parentOf.set inst blp }

/-! ### Concrete states used to instantiate the claims -/

/-- A two-value module: value `0` used by instruction `1` in slot `0`. -/
def c1s : IRState := ⟨[[1], []], [[], [(some 0, 0)]]⟩

/-- One exercise of each of the seven public operand-list operations. -/
def c1ops : List IROp :=
  [.push 1 (some 0), .rauw 0 none, .set 1 (some 0) 0,
   .replaceFirst 1 (some 0) none, .remove 1 1, .erase 1 0, .removeAll 0]

/-- Value `0` used by instructions `1` and `2`: removing the first use swaps
the last user into its place. -/
def c1t : IRState := ⟨[[1, 2], [], []], [[], [(some 0, 0)], [(some 0, 1)]]⟩

/-- The RAUW example: `I1 = 3 : add(x=0, y=1)`, `I2 = 4 : mul(I1, I1)`,
`z = 2` unused. -/
def c2s : IRState :=
  ⟨[[3], [3], [], [4, 4], []],
   [[], [], [], [(some 0, 0), (some 1, 0)], [(some 3, 0), (some 3, 1)]]⟩

/-- Block `0` holding instructions `1` and `2`, with the external instruction
`3` using `1`. -/
def c5s : IRState := ⟨[[], [3], [], []], [[], [], [], [(some 1, 0)]]⟩

/-- Wrappers `w0..w3 = 0..3`: instruction `10` (inside `w0`) uses `w1`,
instruction `21` (inside `w1`) uses `w2`, `w3` isolated. -/
def c6users : Nat → List Nat :=
  fun f => if f = 1 then [10] else if f = 2 then [21] else []

def c6parent : Nat → Nat :=
  fun u => if u = 10 then 0 else if u = 21 then 1 else 5

/-! ## Theorems -/

/-! ### Basic list bridges -/

theorem getElem?_mem {l : List α} {i : Nat} {a : α} (h : l[i]? = some a) : a ∈ l := by
  obtain ⟨hlt, rfl⟩ := List.getElem?_eq_some.mp h
  exact List.getElem_mem ..

theorem mem_getElem? {l : List α} {a : α} (h : a ∈ l) : ∃ i : Nat, l[i]? = some a := by
  obtain ⟨i, hi, rfl⟩ := List.getElem_of_mem h
  exact ⟨i, List.getElem?_eq_getElem hi⟩

theorem lt_of_getElem?_eq_some {l : List α} {i : Nat} {a : α} (h : l[i]? = some a) :
    i < l.length :=
  (List.getElem?_eq_some.mp h).1

theorem getElem?_set_self {l : List α} {i : Nat} {a : α} (h : i < l.length) :
    (l.set i a)[i]? = some a := by
  rw [List.getElem?_set]
  simp [h]

theorem set_of_getElem?_eq {l : List α} {i : Nat} {a : α} (h : l[i]? = some a) :
    l.set i a = l := by
  apply List.ext_getElem?
  intro j
  by_cases hji : i = j
  · subst hji; rw [getElem?_set_self (lt_of_getElem?_eq_some h), h]
  · rw [List.getElem?_set_ne hji]

theorem getElem?_dropLast {l : List α} {i : Nat} :
    l.dropLast[i]? = if i < l.length - 1 then l[i]? else none := by
  rw [List.dropLast_eq_take, List.getElem?_take]

theorem mem_set {l : List α} {i : Nat} {a b : α} (h : b ∈ l.set i a) : b = a ∨ b ∈ l := by
  induction l generalizing i with
  | nil => simp at h
  | cons x xs ih =>
    cases i with
    | zero =>
      rcases List.mem_cons.mp h with h | h
      · exact Or.inl h
      · exact Or.inr (List.mem_cons_of_mem _ h)
    | succ n =>
      rcases List.mem_cons.mp h with h | h
      · exact Or.inr (h ▸ List.mem_cons_self ..)
      · rcases ih h with h | h
        · exact Or.inl h
        · exact Or.inr (List.mem_cons_of_mem _ h)

/-! ### findIdxP characterization -/

theorem findIdxP_eq_some {p : α → Bool} {l : List α} {i : Nat}
    (h : findIdxP p l = some i) : ∃ a, l[i]? = some a ∧ p a = true := by
  induction l generalizing i with
  | nil => simp [findIdxP] at h
  | cons x xs ih =>
    by_cases hx : p x
    · simp [findIdxP, hx] at h
      subst h
      exact ⟨x, by simp, hx⟩
    · simp [findIdxP, hx] at h
      obtain ⟨j, hj, rfl⟩ := h
      obtain ⟨a, ha, hpa⟩ := ih hj
      exact ⟨a, by simpa using ha, hpa⟩

theorem findIdxP_first {p : α → Bool} {l : List α} {i : Nat}
    (h : findIdxP p l = some i) :
    ∀ j < i, ∀ b, l[j]? = some b → p b = false := by
  induction l generalizing i with
  | nil => simp [findIdxP] at h
  | cons x xs ih =>
    by_cases hx : p x
    · simp [findIdxP, hx] at h
      omega
    · simp [findIdxP, hx] at h
      obtain ⟨j', hj', rfl⟩ := h
      intro j hj b hb
      cases j with
      | zero =>
        simp at hb
        subst hb
        simpa using hx
      | succ j =>
        exact ih hj' j (by omega) b (by simpa using hb)

theorem findIdxP_isSome {p : α → Bool} {l : List α} {k : Nat} {a : α}
    (hk : l[k]? = some a) (hp : p a = true) : ∃ i, findIdxP p l = some i := by
  induction l generalizing k with
  | nil => simp at hk
  | cons x xs ih =>
    by_cases hx : p x
    · exact ⟨0, by simp [findIdxP, hx]⟩
    · cases k with
      | zero =>
        simp at hk
        subst hk
        simp [hp] at hx
      | succ k =>
        obtain ⟨i, hi⟩ := ih (by simpa using hk)
        exact ⟨i + 1, by simp [findIdxP, hx, hi]⟩

theorem findIdxP_eq_of_unique {p : α → Bool} {l : List α} {k : Nat} {a : α}
    (hk : l[k]? = some a) (hp : p a = true)
    (huniq : ∀ j b, l[j]? = some b → p b = true → j = k) :
    findIdxP p l = some k := by
  obtain ⟨i, hi⟩ := findIdxP_isSome hk hp
  obtain ⟨b, hb, hpb⟩ := findIdxP_eq_some hi
  rwa [huniq i b hb hpb] at hi

/-! ### countSlot / countProd lemmas -/

theorem countSlot_pos_iff_mem {l : List IRUse} {c : IRUse} : 0 < countSlot l c ↔ c ∈ l := by
  induction l with
  | nil => simp [countSlot]
  | cons a l ih =>
    by_cases hac : a = c
    · subst hac; simp [countSlot]
    · rw [countSlot, if_neg hac, List.mem_cons]
      rw [Nat.zero_add, ih]
      constructor
      · exact fun h => Or.inr h
      · rintro (h | h)
        · exact absurd h.symm hac
        · exact h

theorem countSlot_eq_zero_iff {l : List IRUse} {c : IRUse} :
    countSlot l c = 0 ↔ c ∉ l := by
  rw [← countSlot_pos_iff_mem]
  omega

theorem countSlot_eq_one_iff {l : List IRUse} {c : IRUse} :
    countSlot l c = 1 ↔ ∃! k : Nat, l[k]? = some c := by
  induction l with
  | nil =>
    rw [countSlot]
    constructor
    · omega
    · rintro ⟨k, hk, -⟩; simp at hk
  | cons a l ih =>
    by_cases hac : a = c
    · subst hac
      rw [countSlot, if_pos rfl]
      constructor
      · intro h
        have h0 : countSlot l a = 0 := by omega
        refine ⟨0, by simp, ?_⟩
        intro k hk
        cases k with
        | zero => rfl
        | succ k =>
          exfalso
          have hm : a ∈ l := getElem?_mem (show l[k]? = some a by simpa using hk)
          rw [countSlot_eq_zero_iff] at h0
          exact h0 hm
      · rintro ⟨k, hk, huniq⟩
        have h0 : (0 : Nat) = k := huniq 0 (by simp)
        have hnl : countSlot l a = 0 := by
          rw [countSlot_eq_zero_iff]
          intro hmem
          obtain ⟨j, hj⟩ := mem_getElem? hmem
          have := huniq (j + 1) (by simpa using hj)
          omega
        omega
    · rw [countSlot, if_neg hac, Nat.zero_add, ih]
      constructor
      · rintro ⟨k, hk, huniq⟩
        refine ⟨k + 1, by simpa using hk, ?_⟩
        intro j hj
        cases j with
        | zero =>
          simp at hj
          exact absurd hj hac
        | succ j =>
          have := huniq j (by simpa using hj)
          omega
      · rintro ⟨k, hk, huniq⟩
        cases k with
        | zero =>
          simp at hk
          exact absurd hk hac
        | succ k =>
          refine ⟨k, by simpa using hk, ?_⟩
          intro j hj
          have := huniq (j + 1) (by simpa using hj)
          omega

theorem countSlot_filter_of_pred {l : List IRUse} {c : IRUse} {p : IRUse → Bool}
    (hc : p c = true) : countSlot (l.filter p) c = countSlot l c := by
  induction l with
  | nil => rfl
  | cons a l ih =>
    by_cases hac : a = c
    · subst hac
      simp [List.filter_cons, hc, countSlot, ih]
    · by_cases hpa : p a <;> simp [List.filter_cons, hpa, countSlot, hac, ih]

theorem countSlot_append {l₁ l₂ : List IRUse} {c : IRUse} :
    countSlot (l₁ ++ l₂) c = countSlot l₁ c + countSlot l₂ c := by
  induction l₁ with
  | nil => simp [countSlot]
  | cons a l ih => simp [countSlot, ih]; omega

theorem countSlot_eraseIdx {l : List IRUse} {k : Nat} {u c : IRUse}
    (hk : l[k]? = some u) (hne : u ≠ c) :
    countSlot (l.eraseIdx k) c = countSlot l c := by
  induction l generalizing k with
  | nil => simp at hk
  | cons a l ih =>
    cases k with
    | zero =>
      simp at hk
      subst hk
      simp [List.eraseIdx, countSlot, hne]
    | succ k =>
      simp at hk
      simp [List.eraseIdx, countSlot, ih hk]

theorem countSlot_set {l : List IRUse} {k : Nat} {u b c : IRUse}
    (hk : l[k]? = some u) :
    countSlot (l.set k b) c + (if u = c then 1 else 0)
      = countSlot l c + (if b = c then 1 else 0) := by
  induction l generalizing k with
  | nil => simp at hk
  | cons a l ih =>
    cases k with
    | zero =>
      simp at hk
      subst hk
      simp only [List.set, countSlot]
      omega
    | succ k =>
      simp at hk
      simp only [List.set, countSlot]
      have := ih hk
      omega

theorem countProd_pos_iff_mem {l : List (Option Nat)} {a : Option Nat} :
    0 < countProd l a ↔ a ∈ l := by
  induction l with
  | nil => simp [countProd]
  | cons b l ih =>
    by_cases hba : b = a
    · subst hba; simp [countProd]
    · rw [countProd, if_neg hba, List.mem_cons, Nat.zero_add, ih]
      constructor
      · exact fun h => Or.inr h
      · rintro (h | h)
        · exact absurd h.symm hba
        · exact h

theorem countProd_eq_zero_iff {l : List (Option Nat)} {a : Option Nat} :
    countProd l a = 0 ↔ a ∉ l := by
  rw [← countProd_pos_iff_mem]
  omega

theorem countProd_set {l : List (Option Nat)} {k : Nat} {u b a : Option Nat}
    (hk : l[k]? = some u) :
    countProd (l.set k b) a + (if u = a then 1 else 0)
      = countProd l a + (if b = a then 1 else 0) := by
  induction l generalizing k with
  | nil => simp at hk
  | cons x l ih =>
    cases k with
    | zero =>
      simp at hk
      subst hk
      simp only [List.set, countProd]
      omega
    | succ k =>
      simp at hk
      simp only [List.set, countProd]
      have := ih hk
      omega

/-! ### sumTo lemmas -/

theorem sumTo_congr {n : Nat} {f g : Nat → Nat} (h : ∀ i < n, f i = g i) :
    sumTo n f = sumTo n g := by
  induction n with
  | zero => rfl
  | succ n ih =>
    simp only [sumTo]
    rw [ih (fun i hi => h i (by omega)), h n (by omega)]

theorem sumTo_le_of_mem {n : Nat} {f : Nat → Nat} {i : Nat} (h : i < n) :
    f i ≤ sumTo n f := by
  induction n with
  | zero => omega
  | succ n ih =>
    simp only [sumTo]
    by_cases hi : i = n
    · subst hi; omega
    · have := ih (by omega); omega

theorem sumTo_eq_zero {n : Nat} {f : Nat → Nat} (h : sumTo n f = 0) :
    ∀ i < n, f i = 0 := by
  intro i hi
  have := @sumTo_le_of_mem n f i hi
  omega

theorem sumTo_update {f g : Nat → Nat} (i0 : Nat)
    (hoff : ∀ i, i ≠ i0 → f i = g i) (hat : g i0 + 1 = f i0) :
    ∀ n, i0 < n → sumTo n g + 1 = sumTo n f := by
  intro n
  induction n with
  | zero => omega
  | succ n ih =>
    intro hi0
    simp only [sumTo]
    by_cases hi : i0 = n
    · subst hi
      have heq : sumTo i0 g = sumTo i0 f :=
        sumTo_congr (fun i hilt => (hoff i (by omega)).symm)
      omega
    · have h1 := ih (by omega)
      have h2 := hoff n (fun h => hi h.symm)
      omega

/-! ### State access lemmas -/

theorem users_setOperands (s : IRState) (i : Nat) (l : List IRUse) :
    (setOperands s i l).users = s.users := rfl

theorem operands_setUsers (s : IRState) (v : Nat) (l : List Nat) :
    (setUsers s v l).operands = s.operands := rfl

theorem getUsers_setOperands (s : IRState) (i : Nat) (l : List IRUse) (v : Nat) :
    getUsers (setOperands s i l) v = getUsers s v := rfl

theorem getOperands_setUsers (s : IRState) (v : Nat) (l : List Nat) (i : Nat) :
    getOperands (setUsers s v l) i = getOperands s i := rfl

theorem getUsers_setUsers_self {s : IRState} {v : Nat} (l : List Nat)
    (h : v < s.users.length) : getUsers (setUsers s v l) v = l := by
  unfold getUsers setUsers
  simp [getElem?_set_self h]

theorem getUsers_setUsers_ne {s : IRState} {v : Nat} (l : List Nat) {w : Nat}
    (h : w ≠ v) : getUsers (setUsers s v l) w = getUsers s w := by
  unfold getUsers setUsers
  simp [List.getElem?_set_ne (fun he => h he.symm)]

theorem getOperands_setOperands_self {s : IRState} {i : Nat} (l : List IRUse)
    (h : i < s.operands.length) : getOperands (setOperands s i l) i = l := by
  unfold getOperands setOperands
  simp [getElem?_set_self h]

theorem getOperands_setOperands_ne {s : IRState} {i : Nat} (l : List IRUse) {j : Nat}
    (h : j ≠ i) : getOperands (setOperands s i l) j = getOperands s j := by
  unfold getOperands setOperands
  simp [List.getElem?_set_ne (fun he => h he.symm)]

theorem users_length_setUsers (s : IRState) (v : Nat) (l : List Nat) :
    (setUsers s v l).users.length = s.users.length := List.length_set ..

theorem operands_length_setOperands (s : IRState) (i : Nat) (l : List IRUse) :
    (setOperands s i l).operands.length = s.operands.length := List.length_set ..

theorem lt_users_length_of_ne_nil {s : IRState} {v : Nat} (h : getUsers s v ≠ []) :
    v < s.users.length := by
  by_contra hv
  have : s.users[v]? = none := List.getElem?_eq_none (by omega)
  unfold getUsers at h
  rw [this] at h
  exact h rfl

theorem lt_operands_length_of_ne_nil {s : IRState} {i : Nat} (h : getOperands s i ≠ []) :
    i < s.operands.length := by
  by_contra hv
  have : s.operands[i]? = none := List.getElem?_eq_none (by omega)
  unfold getOperands at h
  rw [this] at h
  exact h rfl

theorem lt_operands_length_of_slot {s : IRState} {i k : Nat} {u : IRUse}
    (h : (getOperands s i)[k]? = some u) : i < s.operands.length := by
  apply lt_operands_length_of_ne_nil
  intro hnil
  rw [hnil] at h
  simp at h

theorem lt_users_length_of_entry {s : IRState} {v j : Nat} {i : Nat}
    (h : (getUsers s v)[j]? = some i) : v < s.users.length := by
  apply lt_users_length_of_ne_nil
  intro hnil
  rw [hnil] at h
  simp at h

/-- Under `Wf`, a slot content `(p, j)` determines the slot position globally. -/
theorem Wf.uniqGlobal {s : IRState} (wf : Wf s) {i k i' k' p j : Nat}
    (h : (getOperands s i)[k]? = some ((some p, j) : IRUse))
    (h' : (getOperands s i')[k']? = some ((some p, j) : IRUse)) :
    i = i' ∧ k = k' := by
  have hu := wf.fwd h
  have hu' := wf.fwd h'
  rw [hu] at hu'
  obtain rfl : i = i' := by injection hu'
  obtain ⟨k0, hk0, huniq⟩ := wf.bwd hu
  rw [huniq k h, huniq k' h']
  exact ⟨rfl, rfl⟩

theorem natAll_eq_true {n : Nat} {p : Nat → Bool} (h : natAll n p = true) :
    ∀ i < n, p i = true := by
  induction n with
  | zero => omega
  | succ n ih =>
    rw [natAll, Bool.and_eq_true] at h
    intro i hi
    by_cases hin : i = n
    · subst hin; exact h.2
    · exact ih h.1 i (by omega)

theorem checkWf_sound {s : IRState} (h : checkWf s = true) : Wf s := by
  rw [checkWf, Bool.and_eq_true] at h
  constructor
  · intro inst k p j hslot
    have hi := lt_operands_length_of_slot hslot
    have hk := lt_of_getElem?_eq_some hslot
    have h1 := natAll_eq_true (natAll_eq_true h.1 inst hi) k hk
    rw [hslot] at h1
    exact beq_iff_eq.mp h1
  · intro p j inst hentry
    have hp := lt_users_length_of_entry hentry
    have hj := lt_of_getElem?_eq_some hentry
    have h2 := natAll_eq_true (natAll_eq_true h.2 p hp) j hj
    rw [hentry] at h2
    exact countSlot_eq_one_iff.mp (by exact_mod_cast beq_iff_eq.mp h2)

theorem use_inj {a b : Option Nat} {x y : Nat} (h : ((a, x) : IRUse) = (b, y)) :
    a = b ∧ x = y := by
  injection h with h1 h2
  exact ⟨h1, h2⟩

theorem use_some_inj {p v x y : Nat} (h : ((some p, x) : IRUse) = (some v, y)) :
    p = v ∧ x = y := by
  obtain ⟨h1, h2⟩ := use_inj h
  exact ⟨Option.some.inj h1, h2⟩

theorem removeUse_spec {s : IRState} {i0 k0 v idx : Nat} (wf : Wf s)
    (hslot : (getOperands s i0)[k0]? = some ((some v, idx) : IRUse)) :
    ∃ s', removeUse s v idx = some s' ∧ RemoveUseOut s s' i0 k0 v idx := by
  have hu : (getUsers s v)[idx]? = some i0 := wf.fwd hslot
  have hidxlt : idx < (getUsers s v).length := lt_of_getElem?_eq_some hu
  have hvlt : v < s.users.length := lt_users_length_of_entry hu
  have hnnil : getUsers s v ≠ [] := by
    intro h
    rw [h] at hu
    simp at hu
  obtain ⟨lastU, hlast⟩ : ∃ lastU, (getUsers s v).getLast? = some lastU := by
    cases h : (getUsers s v).getLast? with
    | none => exact absurd (List.getLast?_eq_none_iff.mp h) hnnil
    | some lastU => exact ⟨lastU, rfl⟩
  have hlastIdx : (getUsers s v)[(getUsers s v).length - 1]? = some lastU := by
    rw [← List.getLast?_eq_getElem?]
    exact hlast
  -- lookup in the updated user list of v
  have husq : ∀ j : Nat, (((getUsers s v).set idx lastU).dropLast)[j]? =
      if j < (getUsers s v).length - 1 then
        (if j = idx then some lastU else (getUsers s v)[j]?) else none := by
    intro j
    rw [getElem?_dropLast, List.length_set]
    by_cases hj : j < (getUsers s v).length - 1
    · rw [if_pos hj, if_pos hj, List.getElem?_set]
      by_cases hji : idx = j
      · rw [if_pos hji, if_pos hidxlt, if_pos hji.symm]
      · rw [if_neg hji, if_neg (fun h => hji h.symm)]
    · rw [if_neg hj, if_neg hj]
  have hs1users : getUsers (setUsers s v (((getUsers s v).set idx lastU).dropLast)) v =
      ((getUsers s v).set idx lastU).dropLast := getUsers_setUsers_self _ hvlt
  by_cases hcase : idx = (getUsers s v).length - 1
  -- Case A: the removed entry is the last one; no patch is needed.
  · have husdrop : ((getUsers s v).set idx lastU).dropLast = (getUsers s v).dropLast := by
      apply List.ext_getElem?
      intro j
      rw [husq j, getElem?_dropLast]
      by_cases hj : j < (getUsers s v).length - 1
      · rw [if_pos hj, if_pos hj, if_neg (by omega)]
      · rw [if_neg hj, if_neg hj]
    refine ⟨setUsers s v (((getUsers s v).set idx lastU).dropLast), ?_,
      ?_, ?_, ?_, ?_, ?_, ?_, ?_, ?_, ?_⟩
    · rw [removeUse, hlast]
      simp only [if_pos hcase]
    -- fwdE
    · intro inst k p j hs hnot
      rw [getOperands_setUsers] at hs
      have husers := wf.fwd hs
      by_cases hp : p = v
      · subst hp
        rw [hs1users, husdrop, getElem?_dropLast]
        have hjlt : j < (getUsers s p).length := lt_of_getElem?_eq_some husers
        by_cases hj : j = (getUsers s p).length - 1
        · exfalso
          exact hnot (wf.uniqGlobal hs (by rw [← hcase] at hj; rw [hj]; exact hslot))
        · rw [if_pos (by omega)]
          exact husers
      · rw [getUsers_setUsers_ne _ hp]
        exact husers
    -- bwdE
    · intro p j inst hentry
      by_cases hp : p = v
      · subst hp
        rw [hs1users, husdrop, getElem?_dropLast] at hentry
        by_cases hj : j < (getUsers s p).length - 1
        · rw [if_pos hj] at hentry
          obtain ⟨k, hk, hku⟩ := wf.bwd hentry
          refine ⟨k, ⟨by rw [getOperands_setUsers]; exact hk, ?_⟩, ?_⟩
          · rintro ⟨rfl, rfl⟩
            rw [hslot] at hk
            obtain ⟨-, h2⟩ := use_some_inj (Option.some.inj hk)
            omega
          · rintro k' ⟨hk', -⟩
            rw [getOperands_setUsers] at hk'
            exact hku k' hk'
        · rw [if_neg hj] at hentry
          simp at hentry
      · rw [getUsers_setUsers_ne _ hp] at hentry
        obtain ⟨k, hk, hku⟩ := wf.bwd hentry
        refine ⟨k, ⟨by rw [getOperands_setUsers]; exact hk, ?_⟩, ?_⟩
        · rintro ⟨rfl, rfl⟩
          rw [hslot] at hk
          obtain ⟨h1, -⟩ := use_some_inj (Option.some.inj hk)
          exact hp h1.symm
        · rintro k' ⟨hk', -⟩
          rw [getOperands_setUsers] at hk'
          exact hku k' hk'
    -- stale
    · rw [getOperands_setUsers]
      exact hslot
    -- usersLen
    · exact users_length_setUsers ..
    -- operandsLen
    · rfl
    -- producers
    · intro i
      rfl
    -- usersOther
    · intro p hp
      exact getUsers_setUsers_ne _ hp
    -- usersV
    · intro l hl
      rw [hlast] at hl
      injection hl with hl
      subst hl
      exact hs1users
    -- patch
    · exact Or.inl ⟨hcase, fun i => rfl⟩
  -- Case B: a user entry is moved into the vacated slot and must be patched.
  · have hidxlt1 : idx < (getUsers s v).length - 1 := by omega
    obtain ⟨kstar, hkstar, hkuniq⟩ := wf.bwd hlastIdx
    have hfind : findIdxP
        (fun u => u = ((some v, (getUsers s v).length - 1) : IRUse))
        (getOperands s lastU) = some kstar := by
      apply findIdxP_eq_of_unique hkstar (by simp)
      intro j b hb hpb
      have hbc : b = ((some v, (getUsers s v).length - 1) : IRUse) := of_decide_eq_true hpb
      subst hbc
      exact hkuniq j hb
    have hlastlt : lastU < s.operands.length := lt_operands_length_of_slot hkstar
    have hkstarlt : kstar < (getOperands s lastU).length := lt_of_getElem?_eq_some hkstar
    refine ⟨setOperands (setUsers s v (((getUsers s v).set idx lastU).dropLast)) lastU
      ((getOperands s lastU).set kstar (some v, idx)), ?_, ?_⟩
    · rw [removeUse, hlast]
      simp only [if_neg hcase]
      rw [getOperands_setUsers, hfind]
    · -- slot lookup in the result state
      have hops : ∀ i k : Nat,
          (getOperands (setOperands (setUsers s v (((getUsers s v).set idx lastU).dropLast))
            lastU ((getOperands s lastU).set kstar (some v, idx))) i)[k]? =
          if i = lastU ∧ k = kstar then some ((some v, idx) : IRUse)
          else (getOperands s i)[k]? := by
        intro i k
        by_cases hi : i = lastU
        · subst hi
          rw [getOperands_setOperands_self _ (by simpa [setUsers] using hlastlt)]
          by_cases hk : k = kstar
          · subst hk
            rw [if_pos ⟨rfl, rfl⟩]
            exact getElem?_set_self hkstarlt
          · rw [if_neg (fun h => hk h.2), List.getElem?_set_ne (fun h => hk h.symm)]
        · rw [getOperands_setOperands_ne _ hi, getOperands_setUsers,
            if_neg (fun h => hi h.1)]
      have husV : getUsers (setOperands (setUsers s v
          (((getUsers s v).set idx lastU).dropLast)) lastU
          ((getOperands s lastU).set kstar (some v, idx))) v =
          ((getUsers s v).set idx lastU).dropLast := by
        rw [getUsers_setOperands]
        exact hs1users
      have husoth : ∀ p, p ≠ v → getUsers (setOperands (setUsers s v
          (((getUsers s v).set idx lastU).dropLast)) lastU
          ((getOperands s lastU).set kstar (some v, idx))) p = getUsers s p := by
        intro p hp
        rw [getUsers_setOperands]
        exact getUsers_setUsers_ne _ hp
      have husVidx : (((getUsers s v).set idx lastU).dropLast)[idx]? = some lastU := by
        rw [husq idx, if_pos hidxlt1, if_pos rfl]
      have hstaleslot : ¬(i0 = lastU ∧ k0 = kstar) := by
        rintro ⟨rfl, rfl⟩
        rw [hslot] at hkstar
        obtain ⟨-, h2⟩ := use_some_inj (Option.some.inj hkstar)
        exact hcase h2
      refine ⟨?_, ?_, ?_, ?_, ?_, ?_, ?_, ?_, ?_⟩
      -- fwdE
      · intro inst k p j hs hnot
        rw [hops] at hs
        by_cases hik : inst = lastU ∧ k = kstar
        · rw [if_pos hik] at hs
          obtain ⟨h1, h2⟩ := use_some_inj (Option.some.inj hs).symm
          subst h1 h2
          rw [husV, hik.1, husVidx]
        · rw [if_neg hik] at hs
          have husers := wf.fwd hs
          by_cases hp : p = v
          · subst hp
            rw [husV, husq]
            have hjlt : j < (getUsers s p).length := lt_of_getElem?_eq_some husers
            by_cases hj1 : j = idx
            · exfalso
              exact hnot (wf.uniqGlobal hs (by rw [hj1]; exact hslot))
            · by_cases hj2 : j = (getUsers s p).length - 1
              · exfalso
                exact hik (wf.uniqGlobal hs (by rw [hj2]; exact hkstar))
              · rw [if_pos (by omega), if_neg hj1]
                exact husers
          · rw [husoth p hp]
            exact husers
      -- bwdE
      · intro p j inst hentry
        by_cases hp : p = v
        · subst hp
          rw [husV, husq] at hentry
          by_cases hj : j < (getUsers s p).length - 1
          · rw [if_pos hj] at hentry
            by_cases hjidx : j = idx
            · rw [if_pos hjidx] at hentry
              injection hentry with hentry
              subst hentry
              subst hjidx
              refine ⟨kstar, ⟨?_, ?_⟩, ?_⟩
              · rw [hops, if_pos ⟨rfl, rfl⟩]
              · rintro ⟨h1, rfl⟩
                exact hstaleslot ⟨h1.symm, rfl⟩
              · rintro k' ⟨hk', hside'⟩
                rw [hops] at hk'
                by_cases hk'star : lastU = lastU ∧ k' = kstar
                · exact hk'star.2
                · rw [if_neg hk'star] at hk'
                  have hug := wf.uniqGlobal hk' hslot
                  exact absurd hug hside'
            · rw [if_neg hjidx] at hentry
              obtain ⟨k, hk, hku⟩ := wf.bwd hentry
              have hkne : ¬(inst = lastU ∧ k = kstar) := by
                rintro ⟨rfl, rfl⟩
                rw [hkstar] at hk
                obtain ⟨-, h2⟩ := use_some_inj (Option.some.inj hk)
                omega
              refine ⟨k, ⟨?_, ?_⟩, ?_⟩
              · rw [hops, if_neg hkne]
                exact hk
              · rintro ⟨rfl, rfl⟩
                rw [hslot] at hk
                obtain ⟨-, h2⟩ := use_some_inj (Option.some.inj hk)
                omega
              · rintro k' ⟨hk', -⟩
                rw [hops] at hk'
                by_cases hk'star : inst = lastU ∧ k' = kstar
                · rw [if_pos hk'star] at hk'
                  obtain ⟨-, h2⟩ := use_some_inj (Option.some.inj hk')
                  omega
                · rw [if_neg hk'star] at hk'
                  exact hku k' hk'
          · rw [if_neg hj] at hentry
            simp at hentry
        · rw [husoth p hp] at hentry
          obtain ⟨k, hk, hku⟩ := wf.bwd hentry
          have hkne : ¬(inst = lastU ∧ k = kstar) := by
            rintro ⟨rfl, rfl⟩
            rw [hkstar] at hk
            obtain ⟨h1, -⟩ := use_some_inj (Option.some.inj hk)
            exact hp h1.symm
          refine ⟨k, ⟨?_, ?_⟩, ?_⟩
          · rw [hops, if_neg hkne]
            exact hk
          · rintro ⟨rfl, rfl⟩
            rw [hslot] at hk
            obtain ⟨h1, -⟩ := use_some_inj (Option.some.inj hk)
            exact hp h1.symm
          · rintro k' ⟨hk', -⟩
            rw [hops] at hk'
            by_cases hk'star : inst = lastU ∧ k' = kstar
            · rw [if_pos hk'star] at hk'
              obtain ⟨h1, -⟩ := use_some_inj (Option.some.inj hk')
              exact absurd h1.symm hp
            · rw [if_neg hk'star] at hk'
              exact hku k' hk'
      -- stale
      · rw [hops, if_neg hstaleslot]
        exact hslot
      -- usersLen
      · rw [users_setOperands]
        exact users_length_setUsers ..
      -- operandsLen
      · rw [operands_length_setOperands, operands_setUsers]
      -- producers
      · intro i
        by_cases hi : i = lastU
        · subst hi
          unfold producersOf
          rw [getOperands_setOperands_self _ (by simpa [setUsers] using hlastlt),
            List.map_set]
          apply set_of_getElem?_eq
          rw [List.getElem?_map, hkstar]
          rfl
        · unfold producersOf
          rw [getOperands_setOperands_ne _ hi, getOperands_setUsers]
      -- usersOther
      · exact husoth
      -- usersV
      · intro l hl
        rw [hlast] at hl
        injection hl with hl
        subst hl
        exact husV
      -- patch
      · refine Or.inr ⟨hcase, lastU, kstar, hlast, hkstar, ?_, ?_, ?_⟩
        · rw [getOperands_setOperands_self _ (by simpa [setUsers] using hlastlt)]
        · intro i hi
          rw [getOperands_setOperands_ne _ hi, getOperands_setUsers]
        · rw [husV]
          exact husVidx

/-! ### Restoring the invariant after overwriting the stale slot -/

theorem wfE_of_null_slot {s : IRState} {i0 k0 : Nat} {u : IRUse} (wf : Wf s)
    (h : (getOperands s i0)[k0]? = some u) (hn : u.1 = none) :
    FwdE s i0 k0 ∧ BwdE s i0 k0 := by
  constructor
  · intro inst k p j hs _
    exact wf.fwd hs
  · intro p j inst hentry
    obtain ⟨k, hk, hku⟩ := wf.bwd hentry
    refine ⟨k, ⟨hk, ?_⟩, ?_⟩
    · rintro ⟨rfl, rfl⟩
      rw [h] at hk
      injection hk with hk
      rw [hk] at hn
      simp at hn
    · rintro k' ⟨hk', -⟩
      exact hku k' hk'

theorem restore_null {s : IRState} {i0 k0 : Nat}
    (hf : FwdE s i0 k0) (hb : BwdE s i0 k0) (hk0 : k0 < (getOperands s i0).length) :
    Wf (setOperands s i0 ((getOperands s i0).set k0 (none, 0))) := by
  have hi0lt : i0 < s.operands.length := by
    apply lt_operands_length_of_ne_nil
    intro hnil
    rw [hnil] at hk0
    simp at hk0
  have hops : ∀ i k : Nat,
      (getOperands (setOperands s i0 ((getOperands s i0).set k0 (none, 0))) i)[k]? =
      if i = i0 ∧ k = k0 then some ((none, 0) : IRUse) else (getOperands s i)[k]? := by
    intro i k
    by_cases hi : i = i0
    · subst hi
      rw [getOperands_setOperands_self _ hi0lt]
      by_cases hk : k = k0
      · subst hk
        rw [if_pos ⟨rfl, rfl⟩]
        exact getElem?_set_self hk0
      · rw [if_neg (fun h => hk h.2), List.getElem?_set_ne (fun h => hk h.symm)]
    · rw [getOperands_setOperands_ne _ hi, if_neg (fun h => hi h.1)]
  constructor
  · intro inst k p j hs
    rw [hops] at hs
    by_cases hik : inst = i0 ∧ k = k0
    · rw [if_pos hik] at hs
      obtain ⟨h1, -⟩ := use_inj (Option.some.inj hs)
      simp at h1
    · rw [if_neg hik] at hs
      exact hf inst k p j hs hik
  · intro p j inst hentry
    obtain ⟨k, ⟨hk, hkside⟩, hku⟩ := hb p j inst hentry
    refine ⟨k, ?_, ?_⟩
    · simp only [hops]
      rw [if_neg hkside]
      exact hk
    · intro k' hk'
      simp only [hops] at hk'
      by_cases hik' : inst = i0 ∧ k' = k0
      · rw [if_pos hik'] at hk'
        obtain ⟨h1, -⟩ := use_inj (Option.some.inj hk')
        simp at h1
      · rw [if_neg hik'] at hk'
        exact hku k' ⟨hk', hik'⟩

theorem restore_addUser {s : IRState} {i0 k0 w : Nat} {wUsers : List Nat}
    (hf : FwdE s i0 k0) (hb : BwdE s i0 k0) (hk0 : k0 < (getOperands s i0).length)
    (hw : s.users[w]? = some wUsers) :
    Wf (setOperands (setUsers s w (wUsers ++ [i0])) i0
      ((getOperands s i0).set k0 (some w, wUsers.length))) := by
  have hwlt : w < s.users.length := lt_of_getElem?_eq_some hw
  have hwus : getUsers s w = wUsers := by
    unfold getUsers
    rw [hw]
    rfl
  have hi0lt : i0 < s.operands.length := by
    apply lt_operands_length_of_ne_nil
    intro hnil
    rw [hnil] at hk0
    simp at hk0
  have hops : ∀ i k : Nat,
      (getOperands (setOperands (setUsers s w (wUsers ++ [i0])) i0
        ((getOperands s i0).set k0 (some w, wUsers.length))) i)[k]? =
      if i = i0 ∧ k = k0 then some ((some w, wUsers.length) : IRUse)
      else (getOperands s i)[k]? := by
    intro i k
    by_cases hi : i = i0
    · subst hi
      rw [getOperands_setOperands_self _ (by simpa [setUsers] using hi0lt)]
      by_cases hk : k = k0
      · subst hk
        rw [if_pos ⟨rfl, rfl⟩]
        exact getElem?_set_self hk0
      · rw [if_neg (fun h => hk h.2), List.getElem?_set_ne (fun h => hk h.symm)]
    · rw [getOperands_setOperands_ne _ hi, getOperands_setUsers, if_neg (fun h => hi h.1)]
  have hwnew : getUsers (setOperands (setUsers s w (wUsers ++ [i0])) i0
      ((getOperands s i0).set k0 (some w, wUsers.length))) w = wUsers ++ [i0] := by
    rw [getUsers_setOperands]
    exact getUsers_setUsers_self _ hwlt
  have hoth : ∀ p, p ≠ w → getUsers (setOperands (setUsers s w (wUsers ++ [i0])) i0
      ((getOperands s i0).set k0 (some w, wUsers.length))) p = getUsers s p := by
    intro p hp
    rw [getUsers_setOperands]
    exact getUsers_setUsers_ne _ hp
  have happ : ∀ j : Nat, (wUsers ++ [i0])[j]? =
      if j < wUsers.length then wUsers[j]?
      else if j = wUsers.length then some i0 else none := by
    intro j
    rw [List.getElem?_append]
    by_cases hj : j < wUsers.length
    · rw [if_pos hj, if_pos hj]
    · rw [if_neg hj, if_neg hj]
      by_cases hj2 : j = wUsers.length
      · rw [if_pos hj2, hj2]
        simp
      · rw [if_neg hj2]
        have : 0 < j - wUsers.length := by omega
        rw [List.getElem?_eq_none]
        simp
        omega
  constructor
  · intro inst k p j hs
    rw [hops] at hs
    by_cases hik : inst = i0 ∧ k = k0
    · rw [if_pos hik] at hs
      obtain ⟨h1, h2⟩ := use_some_inj (Option.some.inj hs).symm
      subst h1 h2
      rw [hwnew, happ, if_neg (by omega), if_pos rfl, hik.1]
    · rw [if_neg hik] at hs
      have husers := hf inst k p j hs hik
      by_cases hp : p = w
      · subst hp
        rw [hwus] at husers
        rw [hwnew, happ, if_pos (lt_of_getElem?_eq_some husers)]
        exact husers
      · rw [hoth p hp]
        exact husers
  · intro p j inst hentry
    by_cases hp : p = w
    · subst hp
      rw [hwnew, happ] at hentry
      by_cases hj : j < wUsers.length
      · rw [if_pos hj] at hentry
        rw [← hwus] at hentry
        obtain ⟨k, ⟨hk, hkside⟩, hku⟩ := hb p j inst hentry
        refine ⟨k, ?_, ?_⟩
        · simp only [hops]
          rw [if_neg hkside]
          exact hk
        · intro k' hk'
          simp only [hops] at hk'
          by_cases hik' : inst = i0 ∧ k' = k0
          · rw [if_pos hik'] at hk'
            obtain ⟨-, h2⟩ := use_some_inj (Option.some.inj hk')
            omega
          · rw [if_neg hik'] at hk'
            exact hku k' ⟨hk', hik'⟩
      · rw [if_neg hj] at hentry
        by_cases hj2 : j = wUsers.length
        · rw [if_pos hj2] at hentry
          injection hentry with hentry
          subst hentry
          refine ⟨k0, ?_, ?_⟩
          · simp [hops, hj2]
          · intro k' hk'
            simp only [hops] at hk'
            by_cases hik' : k' = k0
            · exact hik'
            · rw [if_neg (fun h => hik' h.2)] at hk'
              have husers := hf i0 k' p j hk' (fun h => hik' h.2)
              rw [hwus, hj2] at husers
              exfalso
              have hnone : (wUsers)[wUsers.length]? = none := List.getElem?_eq_none (by omega)
              rw [hnone] at husers
              simp at husers
        · rw [if_neg hj2] at hentry
          simp at hentry
    · rw [hoth p hp] at hentry
      obtain ⟨k, ⟨hk, hkside⟩, hku⟩ := hb p j inst hentry
      refine ⟨k, ?_, ?_⟩
      · simp only [hops]
        rw [if_neg hkside]
        exact hk
      · intro k' hk'
        simp only [hops] at hk'
        by_cases hik' : inst = i0 ∧ k' = k0
        · rw [if_pos hik'] at hk'
          obtain ⟨h1, -⟩ := use_some_inj (Option.some.inj hk')
          exact absurd h1.symm hp
        · rw [if_neg hik'] at hk'
          exact hku k' ⟨hk', hik'⟩

theorem producersOf_length (s : IRState) (i : Nat) :
    (producersOf s i).length = (getOperands s i).length := List.length_map ..

theorem producersOf_getElem? {s : IRState} {i k : Nat} :
    (producersOf s i)[k]? = ((getOperands s i)[k]?).map Prod.fst := by
  unfold producersOf
  rw [List.getElem?_map]

theorem producersOf_setOperands_set {s : IRState} {i index : Nat} {u : IRUse}
    (hi : i < s.operands.length) :
    producersOf (setOperands s i ((getOperands s i).set index u)) i
      = (producersOf s i).set index u.1 := by
  unfold producersOf
  rw [getOperands_setOperands_self _ hi, List.map_set]

theorem producersOf_setOperands_ne {s : IRState} {i : Nat} (l : List IRUse) {j : Nat}
    (h : j ≠ i) : producersOf (setOperands s i l) j = producersOf s j := by
  unfold producersOf
  rw [getOperands_setOperands_ne _ h]

theorem producersOf_setUsers (s : IRState) (v : Nat) (l : List Nat) (i : Nat) :
    producersOf (setUsers s v l) i = producersOf s i := rfl

theorem setOperand_spec {s s' : IRState} {inst index : Nat} {val : Option Nat} (wf : Wf s)
    (h : setOperand s inst val index = some s') : SetOperandOut s s' inst val index := by
  cases hcur : (getOperands s inst)[index]? with
  | none =>
    rw [setOperand, hcur] at h
    exact absurd h (by simp)
  | some cur =>
    obtain ⟨c1, c2⟩ := cur
    rw [setOperand, hcur] at h
    simp only at h
    have hilt : inst < s.operands.length := lt_operands_length_of_slot hcur
    have hidxlt : index < (getOperands s inst).length := lt_of_getElem?_eq_some hcur
    by_cases hsame : c1 = val
    · rw [if_pos hsame] at h
      injection h with h
      subst h
      refine ⟨wf, rfl, rfl, ?_⟩
      intro i
      by_cases hi : i = inst
      · subst hi
        rw [if_pos rfl]
        refine (set_of_getElem?_eq ?_).symm
        rw [producersOf_getElem?, hcur, hsame]
        rfl
      · rw [if_neg hi]
    · rw [if_neg hsame] at h
      -- the state after the removeUse step (if any), with the invariant
      -- holding except at the stale slot (inst, index)
      have hmid : ∃ s1, (match c1 with
            | some cv => removeUse s cv c2
            | none => some s) = some s1 ∧
          FwdE s1 inst index ∧ BwdE s1 inst index ∧
          s1.users.length = s.users.length ∧ s1.operands.length = s.operands.length ∧
          (∀ i, producersOf s1 i = producersOf s i) ∧
          index < (getOperands s1 inst).length := by
        cases hc1 : c1 with
        | none =>
          obtain ⟨hf, hb⟩ := wfE_of_null_slot wf hcur (by rw [hc1])
          exact ⟨s, rfl, hf, hb, rfl, rfl, fun i => rfl, hidxlt⟩
        | some cv =>
          obtain ⟨s1, hrun, out⟩ := removeUse_spec wf (by rw [hc1] at hcur; exact hcur)
          refine ⟨s1, hrun, out.fwdE, out.bwdE, out.usersLen, out.operandsLen,
            out.producers, ?_⟩
          have hlen : (getOperands s1 inst).length = (getOperands s inst).length := by
            rw [← producersOf_length, ← producersOf_length, out.producers]
          omega
      obtain ⟨s1, hrun, hf1, hb1, hul, hol, hprod, hidx1⟩ := hmid
      rw [hrun] at h
      simp only at h
      -- the stale slot still holds its old (now unregistered) content
      cases val with
      | none =>
        injection h with h
        subst h
        refine ⟨restore_null hf1 hb1 hidx1, ?_, ?_, ?_⟩
        · rw [users_setOperands]
          exact hul
        · rw [operands_length_setOperands]
          exact hol
        · intro i
          by_cases hi : i = inst
          · subst hi
            rw [if_pos rfl, producersOf_setOperands_set (by omega), hprod]
          · rw [if_neg hi, producersOf_setOperands_ne _ hi]
            exact hprod i
      | some w =>
        simp only at h
        cases hw : s1.users[w]? with
        | none =>
          rw [hw] at h
          exact absurd h (by simp)
        | some wUsers =>
          rw [hw] at h
          injection h with h
          subst h
          refine ⟨restore_addUser hf1 hb1 hidx1 hw, ?_, ?_, ?_⟩
          · rw [users_setOperands, users_length_setUsers]
            exact hul
          · rw [operands_length_setOperands, operands_setUsers]
            exact hol
          · intro i
            by_cases hi : i = inst
            · subst hi
              rw [if_pos rfl]
              have hstep : producersOf (setOperands (setUsers s1 w (wUsers ++ [i])) i
                  ((getOperands (setUsers s1 w (wUsers ++ [i])) i).set index
                    (some w, wUsers.length))) i
                  = (producersOf (setUsers s1 w (wUsers ++ [i])) i).set index (some w) :=
                producersOf_setOperands_set (by simpa [setUsers] using
                  (show i < s1.operands.length by omega))
              rw [hstep, producersOf_setUsers, hprod]
            · rw [if_neg hi]
              have hstep := @producersOf_setOperands_ne
                (setUsers s1 w (wUsers ++ [inst])) inst
                ((getOperands (setUsers s1 w (wUsers ++ [inst])) inst).set index
                  (some w, wUsers.length)) i hi
              rw [hstep, producersOf_setUsers]
              exact hprod i

/-! ### Invariant preservation for every public operand-list operation -/

theorem state_eq_of_oob_setOperands {s : IRState} {i : Nat} (l : List IRUse)
    (h : s.operands.length ≤ i) : setOperands s i l = s := by
  unfold setOperands
  cases s with
  | mk us ops => simp [List.set_eq_of_length_le h]

/-- Rewriting one instruction's operand list while preserving the multiset of
non-null slot contents preserves the invariant. -/
theorem wf_setOperands_counts {s : IRState} {i : Nat} {l : List IRUse} (wf : Wf s)
    (hc : ∀ c : IRUse, c.1 ≠ none → countSlot l c = countSlot (getOperands s i) c) :
    Wf (setOperands s i l) := by
  by_cases hi : i < s.operands.length
  · constructor
    · intro inst k p j hs
      show (getUsers s p)[j]? = some inst
      by_cases hinst : inst = i
      · subst hinst
        rw [getOperands_setOperands_self _ hi] at hs
        have hmem : ((some p, j) : IRUse) ∈ l := getElem?_mem hs
        have hpos : 0 < countSlot (getOperands s inst) ((some p, j) : IRUse) := by
          rw [← hc ((some p, j) : IRUse) (by simp)]
          exact countSlot_pos_iff_mem.2 hmem
        obtain ⟨k0, hk0⟩ := mem_getElem? (countSlot_pos_iff_mem.1 hpos)
        exact wf.fwd hk0
      · rw [getOperands_setOperands_ne _ hinst] at hs
        exact wf.fwd hs
    · intro p j inst hentry
      have hentry' : (getUsers s p)[j]? = some inst := hentry
      obtain ⟨k, hk, -⟩ := wf.bwd hentry'
      have hcount : countSlot (getOperands s inst) ((some p, j) : IRUse) = 1 :=
        countSlot_eq_one_iff.2 (wf.bwd hentry')
      by_cases hinst : inst = i
      · subst hinst
        have : countSlot l ((some p, j) : IRUse) = 1 := by
          rw [hc ((some p, j) : IRUse) (by simp)]
          exact hcount
        have h2 := countSlot_eq_one_iff.1 this
        obtain ⟨k', hk', hku'⟩ := h2
        refine ⟨k', ?_, ?_⟩
        · rw [getOperands_setOperands_self _ hi]
          exact hk'
        · intro y hy
          rw [getOperands_setOperands_self _ hi] at hy
          exact hku' y hy
      · obtain ⟨k', hk', hku'⟩ := wf.bwd hentry'
        refine ⟨k', ?_, ?_⟩
        · rw [getOperands_setOperands_ne _ hinst]
          exact hk'
        · intro y hy
          rw [getOperands_setOperands_ne _ hinst] at hy
          exact hku' y hy
  · rw [state_eq_of_oob_setOperands l (by omega)]
    exact wf

theorem wf_pushOperand {s s' : IRState} {inst : Nat} {val : Option Nat} (wf : Wf s)
    (h : pushOperand s inst val = some s') : Wf s' := by
  rw [pushOperand] at h
  have hmid : Wf (setOperands s inst (getOperands s inst ++ [(none, 0)])) := by
    apply wf_setOperands_counts wf
    intro c hc1
    rw [countSlot_append]
    have : countSlot [((none, 0) : IRUse)] c = 0 := by
      rw [countSlot_eq_zero_iff]
      intro hmem
      simp at hmem
      rw [hmem] at hc1
      simp at hc1
    omega
  exact (setOperand_spec hmid h).wf

theorem wf_removeOperand {s s' : IRState} {inst index : Nat} (wf : Wf s)
    (h : removeOperand s inst index = some s') : Wf s' := by
  rw [removeOperand] at h
  cases hset : setOperand s inst none index with
  | none =>
    rw [hset] at h
    exact absurd h (by simp)
  | some s1 =>
    rw [hset] at h
    injection h with h
    subst h
    have out := setOperand_spec wf hset
    -- the nulled slot
    have hidx : index < (getOperands s inst).length := by
      by_contra hlt
      rw [setOperand, List.getElem?_eq_none (by omega)] at hset
      exact absurd hset (by simp)
    have hslot1 : ∃ u : IRUse, (getOperands s1 inst)[index]? = some u ∧ u.1 = none := by
      have hp := out.producers inst
      rw [if_pos rfl] at hp
      have h1 : (producersOf s1 inst)[index]? = some none := by
        rw [hp]
        apply getElem?_set_self
        rw [producersOf_length]
        exact hidx
      rw [producersOf_getElem?] at h1
      cases h2 : (getOperands s1 inst)[index]? with
      | none => rw [h2] at h1; simp at h1
      | some u =>
        rw [h2] at h1
        injection h1 with h1
        exact ⟨u, rfl, h1⟩
    obtain ⟨u, hu, hu1⟩ := hslot1
    apply wf_setOperands_counts out.wf
    intro c hc1
    apply countSlot_eraseIdx hu
    intro he
    rw [he] at hu1
    exact hc1 hu1

theorem wf_replaceFirstOperandWith {s s' : IRState} {inst : Nat} {oldV newV : Option Nat}
    (wf : Wf s) (h : replaceFirstOperandWith s inst oldV newV = some s') : Wf s' := by
  rw [replaceFirstOperandWith] at h
  cases hf : findIdxP (fun u => u.1 = oldV) (getOperands s inst) with
  | none =>
    rw [hf] at h
    exact absurd h (by simp)
  | some i =>
    rw [hf] at h
    exact (setOperand_spec wf h).wf

theorem wf_nullOutV {inst v : Nat} :
    ∀ (is : List Nat) {s s' : IRState}, Wf s → nullOutV inst v is s = some s' → Wf s' := by
  intro is
  induction is with
  | nil =>
    intro s s' wf h
    rw [nullOutV] at h
    injection h with h
    subst h
    exact wf
  | cons i is ih =>
    intro s s' wf h
    rw [nullOutV] at h
    by_cases hcond : ((getOperands s inst)[i]?.getD (none, 0)).1 = some v
    · rw [if_pos hcond] at h
      cases hset : setOperand s inst none i with
      | none => rw [hset] at h; exact absurd h (by simp)
      | some s1 =>
        rw [hset] at h
        exact ih (setOperand_spec wf hset).wf h
    · rw [if_neg hcond] at h
      exact ih wf h

theorem wf_eraseOperand {s s' : IRState} {inst v : Nat} (wf : Wf s)
    (h : eraseOperand s inst v = some s') : Wf s' := by
  rw [eraseOperand] at h
  cases hnull : nullOutV inst v (List.range (getOperands s inst).length) s with
  | none => rw [hnull] at h; exact absurd h (by simp)
  | some s1 =>
    rw [hnull] at h
    have wf1 : Wf s1 := wf_nullOutV _ wf hnull
    simp only at h
    by_cases hcont : (getUsers (setOperands s1 inst
        ((getOperands s1 inst).filter (fun u => !(u.1 = none : Bool)))) v).contains inst
    · rw [if_pos hcont] at h
      exact absurd h (by simp)
    · rw [if_neg hcont] at h
      injection h with h
      subst h
      apply wf_setOperands_counts wf1
      intro c hc1
      apply countSlot_filter_of_pred
      simp [hc1]

theorem wf_rauwLoop {v : Nat} {other : Option Nat} :
    ∀ (fuel : Nat) {s s' : IRState}, Wf s → rauwLoop v other fuel s = some s' → Wf s' := by
  intro fuel
  induction fuel with
  | zero =>
    intro s s' wf h
    rw [rauwLoop] at h
    by_cases hc : (getUsers s v).getLast? = none
    · rw [if_pos hc] at h
      injection h with h
      subst h
      exact wf
    · rw [if_neg hc] at h
      exact absurd h (by simp)
  | succ fuel ih =>
    intro s s' wf h
    rw [rauwLoop] at h
    cases hlast : (getUsers s v).getLast? with
    | none =>
      rw [hlast] at h
      injection h with h
      subst h
      exact wf
    | some u0 =>
      rw [hlast] at h
      simp only at h
      cases hrep : replaceFirstOperandWith s u0 (some v) other with
      | none => rw [hrep] at h; exact absurd h (by simp)
      | some s1 =>
        rw [hrep] at h
        exact ih (wf_replaceFirstOperandWith wf hrep) h

theorem wf_replaceAllUsesWith {s s' : IRState} {v : Nat} {other : Option Nat} (wf : Wf s)
    (h : replaceAllUsesWith s v other = some s') : Wf s' := by
  rw [replaceAllUsesWith] at h
  by_cases hc : other = some v
  · rw [if_pos hc] at h
    injection h with h
    subst h
    exact wf
  · rw [if_neg hc] at h
    exact wf_rauwLoop _ wf h

theorem wf_removeAllLoop {v : Nat} :
    ∀ (fuel : Nat) {s s' : IRState}, Wf s → removeAllLoop v fuel s = some s' → Wf s' := by
  intro fuel
  induction fuel with
  | zero =>
    intro s s' wf h
    rw [removeAllLoop] at h
    by_cases hc : (getUsers s v).getLast? = none
    · rw [if_pos hc] at h
      injection h with h
      subst h
      exact wf
    · rw [if_neg hc] at h
      exact absurd h (by simp)
  | succ fuel ih =>
    intro s s' wf h
    rw [removeAllLoop] at h
    cases hlast : (getUsers s v).getLast? with
    | none =>
      rw [hlast] at h
      injection h with h
      subst h
      exact wf
    | some u0 =>
      rw [hlast] at h
      simp only at h
      cases her : eraseOperand s u0 v with
      | none => rw [her] at h; exact absurd h (by simp)
      | some s1 =>
        rw [her] at h
        exact ih (wf_eraseOperand wf her) h

theorem wf_applyOp {s s' : IRState} {op : IROp} (wf : Wf s)
    (h : applyOp s op = some s') : Wf s' := by
  cases op with
  | push inst val => exact wf_pushOperand wf h
  | set inst val index => exact (setOperand_spec wf h).wf
  | remove inst index => exact wf_removeOperand wf h
  | replaceFirst inst oldV newV => exact wf_replaceFirstOperandWith wf h
  | erase inst v => exact wf_eraseOperand wf h
  | rauw v other => exact wf_replaceAllUsesWith wf h
  | removeAll v => exact wf_removeAllLoop _ wf h

theorem wf_applyOps :
    ∀ (ops : List IROp) {s s' : IRState}, Wf s → applyOps s ops = some s' → Wf s' := by
  intro ops
  induction ops with
  | nil =>
    intro s s' wf h
    rw [applyOps] at h
    injection h with h
    subst h
    exact wf
  | cons op ops ih =>
    intro s s' wf h
    rw [applyOps] at h
    cases hop : applyOp s op with
    | none => rw [hop] at h; exact absurd h (by simp)
    | some s1 =>
      rw [hop] at h
      exact ih (wf_applyOp wf hop) h

/-! ### Total correctness of `replaceAllUsesWith` -/

theorem setOperand_total {s : IRState} {inst index : Nat} {val : Option Nat} {cur : IRUse}
    (wf : Wf s) (hcur : (getOperands s inst)[index]? = some cur)
    (hval : ∀ w, val = some w → w < s.users.length) :
    ∃ s', setOperand s inst val index = some s' := by
  obtain ⟨c1, c2⟩ := cur
  by_cases hsame : c1 = val
  · exact ⟨s, by rw [setOperand, hcur]; simp only; rw [if_pos hsame]⟩
  · have hmid : ∃ s1, (match c1 with
        | some cv => removeUse s cv c2
        | none => some s) = some s1 ∧ s1.users.length = s.users.length := by
      cases hc1 : c1 with
      | none => exact ⟨s, rfl, rfl⟩
      | some cv =>
        obtain ⟨s1, hrun, out⟩ := removeUse_spec wf (by rw [hc1] at hcur; exact hcur)
        exact ⟨s1, hrun, out.usersLen⟩
    obtain ⟨s1, hrun, hul⟩ := hmid
    cases hv : val with
    | none =>
      subst hv
      refine ⟨setOperands s1 inst ((getOperands s1 inst).set index (none, 0)), ?_⟩
      rw [setOperand, hcur]
      simp only
      rw [if_neg hsame, hrun]
    | some w =>
      subst hv
      have hwlt : w < s1.users.length := by
        rw [hul]
        exact hval w rfl
      have hw : ∃ wUsers, s1.users[w]? = some wUsers :=
        ⟨s1.users[w], List.getElem?_eq_getElem hwlt⟩
      obtain ⟨wUsers, hw⟩ := hw
      refine ⟨setOperands (setUsers s1 w (wUsers ++ [inst])) inst
        ((getOperands (setUsers s1 w (wUsers ++ [inst])) inst).set index
          (some w, wUsers.length)), ?_⟩
      rw [setOperand, hcur]
      simp only
      rw [if_neg hsame, hrun]
      simp only
      rw [hw]

theorem mapSubst_eq_self {v : Nat} {other : Option Nat} {l : List (Option Nat)}
    (h : some v ∉ l) : mapSubst v other l = l := by
  induction l with
  | nil => rfl
  | cons a l ih =>
    unfold mapSubst at *
    simp only [List.map_cons]
    have ha : a ≠ some v := fun he => h (he ▸ List.mem_cons_self ..)
    rw [if_neg ha, ih (fun hm => h (List.mem_cons_of_mem _ hm))]

theorem mapSubst_set_comm {v : Nat} {other : Option Nat} {l : List (Option Nat)} {k : Nat}
    (hother : other ≠ some v) (hk : l[k]? = some (some v)) :
    mapSubst v other (l.set k other) = mapSubst v other l := by
  unfold mapSubst
  rw [List.map_set, if_neg hother]
  apply set_of_getElem?_eq
  rw [List.getElem?_map, hk]
  simp

theorem not_mem_producers_of_users_nil {s : IRState} {v : Nat} (wf : Wf s)
    (h : getUsers s v = []) : ∀ i, some v ∉ producersOf s i := by
  intro i hmem
  obtain ⟨k, hk⟩ := mem_getElem? hmem
  rw [producersOf_getElem?] at hk
  cases hops : (getOperands s i)[k]? with
  | none => rw [hops] at hk; simp at hk
  | some u =>
    rw [hops] at hk
    injection hk with hk
    obtain ⟨u1, u2⟩ := u
    simp at hk
    subst hk
    have := wf.fwd hops
    rw [h] at this
    simp at this

theorem vSlot_pos_of_user {s : IRState} {v u0 : Nat} (wf : Wf s)
    (hlast : (getUsers s v).getLast? = some u0) : 0 < vSlotCount s v := by
  have hlastIdx : (getUsers s v)[(getUsers s v).length - 1]? = some u0 := by
    rw [← List.getLast?_eq_getElem?]
    exact hlast
  obtain ⟨k, hk, -⟩ := wf.bwd hlastIdx
  have hplt : u0 < s.operands.length := lt_operands_length_of_slot hk
  have hmem : some v ∈ producersOf s u0 := by
    have : (producersOf s u0)[k]? = some (some v) := by
      rw [producersOf_getElem?, hk]
      rfl
    exact getElem?_mem this
  have h1 : 0 < countProd (producersOf s u0) (some v) := countProd_pos_iff_mem.2 hmem
  have h2 := @sumTo_le_of_mem s.operands.length
    (fun i => countProd (producersOf s i) (some v)) u0 hplt
  simp only at h2
  unfold vSlotCount
  omega

theorem vSlotCount_setOperand {s s' : IRState} {inst index : Nat} {val : Option Nat}
    {v : Nat} (out : SetOperandOut s s' inst val index)
    (hk : (producersOf s inst)[index]? = some (some v)) (hval : val ≠ some v) :
    vSlotCount s' v + 1 = vSlotCount s v := by
  have hilt : inst < s.operands.length := by
    apply lt_operands_length_of_ne_nil
    intro hnil
    have : producersOf s inst = [] := by
      simp [producersOf, hnil]
    rw [this] at hk
    simp at hk
  unfold vSlotCount
  rw [out.operandsLen]
  apply sumTo_update inst
  · intro i hi
    rw [out.producers i, if_neg hi]
  · rw [out.producers inst, if_pos rfl]
    have h3 := @countProd_set (producersOf s inst) index (some v) val (some v) hk
    rw [if_pos rfl, if_neg hval] at h3
    omega
  · exact hilt

theorem rauwStep {s : IRState} {v u0 : Nat} {other : Option Nat} (wf : Wf s)
    (hlast : (getUsers s v).getLast? = some u0) (hother : other ≠ some v)
    (hvalid : ∀ w, other = some w → w < s.users.length) :
    ∃ s', replaceFirstOperandWith s u0 (some v) other = some s' ∧ Wf s' ∧
      vSlotCount s' v + 1 = vSlotCount s v ∧
      s'.users.length = s.users.length ∧ s'.operands.length = s.operands.length ∧
      (∀ i, producersOf s' i = mapSubst v other (producersOf s i) ∨
        mapSubst v other (producersOf s' i) = mapSubst v other (producersOf s i)) := by
  have hlastIdx : (getUsers s v)[(getUsers s v).length - 1]? = some u0 := by
    rw [← List.getLast?_eq_getElem?]
    exact hlast
  obtain ⟨kstar, hkstar, -⟩ := wf.bwd hlastIdx
  obtain ⟨kf, hkf⟩ := @findIdxP_isSome IRUse (fun u => u.1 = some v)
    (getOperands s u0) kstar _ hkstar (by simp)
  obtain ⟨a, ha, hpa⟩ := findIdxP_eq_some hkf
  have ha1 : a.1 = some v := of_decide_eq_true hpa
  obtain ⟨a1, a2⟩ := a
  simp only at ha1
  subst ha1
  obtain ⟨s', hset⟩ := setOperand_total wf ha (fun w hw => hvalid w hw)
  have out := setOperand_spec wf hset
  have hprodk : (producersOf s u0)[kf]? = some (some v) := by
    rw [producersOf_getElem?, ha]
    rfl
  refine ⟨s', ?_, out.wf, ?_, out.usersLen, out.operandsLen, ?_⟩
  · rw [replaceFirstOperandWith, hkf]
    exact hset
  · exact vSlotCount_setOperand out hprodk hother
  · intro i
    right
    by_cases hi : i = u0
    · subst hi
      rw [out.producers i, if_pos rfl]
      exact mapSubst_set_comm hother hprodk
    · rw [out.producers i, if_neg hi]

theorem rauwLoop_total {v : Nat} {other : Option Nat} (hother : other ≠ some v) :
    ∀ (fuel : Nat) (s : IRState), Wf s → (∀ w, other = some w → w < s.users.length) →
      vSlotCount s v ≤ fuel →
      ∃ s', rauwLoop v other fuel s = some s' ∧ Wf s' ∧ getUsers s' v = [] ∧
        s'.users.length = s.users.length ∧ s'.operands.length = s.operands.length ∧
        (∀ i, producersOf s' i = mapSubst v other (producersOf s i)) := by
  intro fuel
  induction fuel with
  | zero =>
    intro s wf hvalid hmu
    have hnil : (getUsers s v).getLast? = none := by
      cases hl : (getUsers s v).getLast? with
      | none => rfl
      | some u0 =>
        have := vSlot_pos_of_user wf hl
        omega
    refine ⟨s, ?_, wf, List.getLast?_eq_none_iff.mp hnil, rfl, rfl, ?_⟩
    · rw [rauwLoop, if_pos hnil]
    · intro i
      exact (mapSubst_eq_self (not_mem_producers_of_users_nil wf
        (List.getLast?_eq_none_iff.mp hnil) i)).symm
  | succ fuel ih =>
    intro s wf hvalid hmu
    cases hl : (getUsers s v).getLast? with
    | none =>
      refine ⟨s, ?_, wf, List.getLast?_eq_none_iff.mp hl, rfl, rfl, ?_⟩
      · rw [rauwLoop, hl]
      · intro i
        exact (mapSubst_eq_self (not_mem_producers_of_users_nil wf
          (List.getLast?_eq_none_iff.mp hl) i)).symm
    | some u0 =>
      obtain ⟨s1, hrep, wf1, hmu1, hul1, hol1, hprod1⟩ := rauwStep wf hl hother hvalid
      obtain ⟨s', hloop, wf', hnil', hul', hol', hprod'⟩ := ih s1 wf1
        (fun w hw => hul1 ▸ hvalid w hw) (by omega)
      refine ⟨s', ?_, wf', hnil', by omega, by omega, ?_⟩
      · rw [rauwLoop, hl]
        simp only
        rw [hrep]
        exact hloop
      · intro i
        rw [hprod' i]
        rcases hprod1 i with h | h
        · rw [h]
          apply mapSubst_eq_self
          intro hmem
          unfold mapSubst at hmem
          obtain ⟨p, hp, hpe⟩ := List.mem_map.mp hmem
          by_cases hpv : p = some v
          · rw [if_pos hpv] at hpe
            exact hother hpe
          · rw [if_neg hpv] at hpe
            exact hpv hpe
        · exact h

theorem noRef_of_users_nil {s : IRState} {x : Nat} (wf : Wf s)
    (h : getUsers s x = []) : NoRef s x :=
  fun i => not_mem_producers_of_users_nil wf h i

theorem noRef_setOperand {s s' : IRState} {inst index x : Nat} {val : Option Nat}
    (wf : Wf s) (h : setOperand s inst val index = some s') (hval : val ≠ some x)
    (hnr : NoRef s x) : NoRef s' x := by
  intro i hmem
  have out := setOperand_spec wf h
  rw [out.producers i] at hmem
  by_cases hi : i = inst
  · subst hi
    rw [if_pos rfl] at hmem
    rcases mem_set hmem with hv | hv
    · exact hval hv.symm
    · exact hnr i hv
  · rw [if_neg hi] at hmem
    exact hnr i hmem

theorem noRef_setAllNull {inst x : Nat} :
    ∀ (is : List Nat) {s s' : IRState}, Wf s → setAllNull inst is s = some s' →
      NoRef s x → NoRef s' x := by
  intro is
  induction is with
  | nil =>
    intro s s' wf h hnr
    rw [setAllNull] at h
    injection h with h
    subst h
    exact hnr
  | cons i is ih =>
    intro s s' wf h hnr
    rw [setAllNull] at h
    cases hset : setOperand s inst none i with
    | none => rw [hset] at h; exact absurd h (by simp)
    | some s1 =>
      rw [hset] at h
      exact ih (setOperand_spec wf hset).wf h (noRef_setOperand wf hset (by simp) hnr)

theorem wf_setAllNull {inst : Nat} :
    ∀ (is : List Nat) {s s' : IRState}, Wf s → setAllNull inst is s = some s' → Wf s' := by
  intro is
  induction is with
  | nil =>
    intro s s' wf h
    rw [setAllNull] at h
    injection h with h
    subst h
    exact wf
  | cons i is ih =>
    intro s s' wf h
    rw [setAllNull] at h
    cases hset : setOperand s inst none i with
    | none => rw [hset] at h; exact absurd h (by simp)
    | some s1 =>
      rw [hset] at h
      exact ih (setOperand_spec wf hset).wf h

theorem noRef_rauwLoop {v x : Nat} {other : Option Nat} (hother : other ≠ some x) :
    ∀ (fuel : Nat) {s s' : IRState}, Wf s → rauwLoop v other fuel s = some s' →
      NoRef s x → NoRef s' x := by
  intro fuel
  induction fuel with
  | zero =>
    intro s s' wf h hnr
    rw [rauwLoop] at h
    by_cases hc : (getUsers s v).getLast? = none
    · rw [if_pos hc] at h
      injection h with h
      subst h
      exact hnr
    · rw [if_neg hc] at h
      exact absurd h (by simp)
  | succ fuel ih =>
    intro s s' wf h hnr
    rw [rauwLoop] at h
    cases hlast : (getUsers s v).getLast? with
    | none =>
      rw [hlast] at h
      injection h with h
      subst h
      exact hnr
    | some u0 =>
      rw [hlast] at h
      simp only at h
      cases hrep : replaceFirstOperandWith s u0 (some v) other with
      | none => rw [hrep] at h; exact absurd h (by simp)
      | some s1 =>
        rw [hrep] at h
        have hnr1 : NoRef s1 x := by
          rw [replaceFirstOperandWith] at hrep
          cases hf : findIdxP (fun u => u.1 = some v) (getOperands s u0) with
          | none => rw [hf] at hrep; exact absurd hrep (by simp)
          | some i =>
            rw [hf] at hrep
            exact noRef_setOperand wf hrep hother hnr
        exact ih (wf_replaceFirstOperandWith wf hrep) h hnr1

theorem noRef_rauwNull {s s' : IRState} {v x : Nat} (wf : Wf s)
    (h : replaceAllUsesWith s v none = some s') (hnr : NoRef s x) : NoRef s' x := by
  rw [replaceAllUsesWith, if_neg (by simp)] at h
  exact noRef_rauwLoop (by simp) _ wf h hnr

theorem rauwLoop_users_nil {v : Nat} {other : Option Nat} :
    ∀ (fuel : Nat) {s s' : IRState}, rauwLoop v other fuel s = some s' →
      getUsers s' v = [] := by
  intro fuel
  induction fuel with
  | zero =>
    intro s s' h
    rw [rauwLoop] at h
    by_cases hc : (getUsers s v).getLast? = none
    · rw [if_pos hc] at h
      injection h with h
      subst h
      exact List.getLast?_eq_none_iff.mp hc
    · rw [if_neg hc] at h
      exact absurd h (by simp)
  | succ fuel ih =>
    intro s s' h
    rw [rauwLoop] at h
    cases hlast : (getUsers s v).getLast? with
    | none =>
      rw [hlast] at h
      injection h with h
      subst h
      exact List.getLast?_eq_none_iff.mp hlast
    | some u0 =>
      rw [hlast] at h
      simp only at h
      cases hrep : replaceFirstOperandWith s u0 (some v) other with
      | none => rw [hrep] at h; exact absurd h (by simp)
      | some s1 =>
        rw [hrep] at h
        exact ih h

theorem noRef_drainBlock {bb x : Nat} :
    ∀ (insts : List Nat) {s s' : IRState}, Wf s → drainBlock bb insts s = some s' →
      NoRef s x → NoRef s' x := by
  intro insts
  induction insts with
  | nil =>
    intro s s' wf h hnr
    rw [drainBlock] at h
    by_cases hc : getUsers s bb = []
    · rw [if_pos hc] at h
      injection h with h
      subst h
      exact hnr
    · rw [if_neg hc] at h
      exact absurd h (by simp)
  | cons hd rest ih =>
    intro s s' wf h hnr
    rw [drainBlock] at h
    cases hrauw : replaceAllUsesWith s hd none with
    | none => rw [hrauw] at h; exact absurd h (by simp)
    | some s1 =>
      rw [hrauw] at h
      simp only at h
      cases hErase : instEraseOps s1 hd with
      | none => rw [hErase] at h; exact absurd h (by simp)
      | some s2 =>
        rw [hErase] at h
        have wf1 : Wf s1 := wf_replaceAllUsesWith wf hrauw
        exact ih (wf_setAllNull _ wf1 hErase) h
          (noRef_setAllNull _ wf1 hErase (noRef_rauwNull wf hrauw hnr))

theorem drainBlock_spec {bb : Nat} :
    ∀ (insts : List Nat) {s s' : IRState}, Wf s → drainBlock bb insts s = some s' →
      Wf s' ∧ getUsers s' bb = [] ∧ ∀ h ∈ insts, NoRef s' h := by
  intro insts
  induction insts with
  | nil =>
    intro s s' wf h
    rw [drainBlock] at h
    by_cases hc : getUsers s bb = []
    · rw [if_pos hc] at h
      injection h with h
      subst h
      exact ⟨wf, hc, by simp⟩
    · rw [if_neg hc] at h
      exact absurd h (by simp)
  | cons hd rest ih =>
    intro s s' wf h
    rw [drainBlock] at h
    cases hrauw : replaceAllUsesWith s hd none with
    | none => rw [hrauw] at h; exact absurd h (by simp)
    | some s1 =>
      rw [hrauw] at h
      simp only at h
      cases hErase : instEraseOps s1 hd with
      | none => rw [hErase] at h; exact absurd h (by simp)
      | some s2 =>
        rw [hErase] at h
        have wf1 : Wf s1 := wf_replaceAllUsesWith wf hrauw
        have husers1 : getUsers s1 hd = [] := by
          rw [replaceAllUsesWith, if_neg (by simp)] at hrauw
          exact rauwLoop_users_nil _ hrauw
        have wf2 : Wf s2 := wf_setAllNull _ wf1 hErase
        have hnr2 : NoRef s2 hd :=
          noRef_setAllNull _ wf1 hErase (noRef_of_users_nil wf1 husers1)
        obtain ⟨wf', hbb', hrest'⟩ := ih wf2 h
        refine ⟨wf', hbb', ?_⟩
        intro x hx
        rcases List.mem_cons.mp hx with hx | hx
        · subst hx
          exact noRef_drainBlock rest wf2 h hnr2
        · exact hrest' x hx

/-! #### Properties of the decimal rendering -/

theorem charVal_digitChar {r : Nat} (h : r < 10) : charVal (digitChar r) = r := by
  interval_cases r <;> rfl

theorem isDigitChar_digitChar {r : Nat} (h : r < 10) : isDigitChar (digitChar r) = true := by
  interval_cases r <;> rfl

theorem decVal_append_digit (l : List Char) (c : Char) :
    decVal (l ++ [c]) = decVal l * 10 + charVal c := by
  unfold decVal
  rw [List.foldl_append]
  rfl

theorem natToDecimalGo_spec :
    ∀ (fuel n : Nat), n < fuel →
      natToDecimalGo fuel n ≠ [] ∧ (∀ c ∈ natToDecimalGo fuel n, isDigitChar c = true) ∧
      decVal (natToDecimalGo fuel n) = n := by
  intro fuel
  induction fuel with
  | zero => omega
  | succ fuel ih =>
    intro n hn
    rw [natToDecimalGo]
    by_cases h10 : n < 10
    · rw [if_pos h10]
      refine ⟨by simp, ?_, ?_⟩
      · intro c hc
        simp at hc
        subst hc
        exact isDigitChar_digitChar h10
      · show decVal ([] ++ [digitChar n]) = n
        rw [decVal_append_digit, charVal_digitChar h10]
        simp [decVal]
    · rw [if_neg h10]
      have hdivlt : n / 10 < fuel := by
        have h1 : n / 10 < n := Nat.div_lt_self (by omega) (by omega)
        omega
      obtain ⟨hne, hdig, hval⟩ := ih (n / 10) hdivlt
      refine ⟨by simp, ?_, ?_⟩
      · intro c hc
        rcases List.mem_append.mp hc with hc | hc
        · exact hdig c hc
        · simp at hc
          subst hc
          exact isDigitChar_digitChar (Nat.mod_lt _ (by omega))
      · rw [decVal_append_digit, hval, charVal_digitChar (Nat.mod_lt _ (by omega))]
        omega

theorem natToDecimal_ne_nil (n : Nat) : natToDecimal n ≠ [] :=
  (natToDecimalGo_spec (n + 1) n (by omega)).1

theorem natToDecimal_digits (n : Nat) : ∀ c ∈ natToDecimal n, isDigitChar c = true :=
  (natToDecimalGo_spec (n + 1) n (by omega)).2.1

theorem decVal_natToDecimal (n : Nat) : decVal (natToDecimal n) = n :=
  (natToDecimalGo_spec (n + 1) n (by omega)).2.2

theorem natToDecimal_injective {a b : Nat} (h : natToDecimal a = natToDecimal b) : a = b := by
  have := decVal_natToDecimal a
  rw [h, decVal_natToDecimal] at this
  omega

/-! #### The strip function: both directions of the suffix-shape
characterization -/

theorem stripDigitsSpace_digits {dl : List Char} (hdl : ∀ c ∈ dl, isDigitChar c = true) :
    ∀ r : List Char, stripDigitsSpace (dl ++ ' ' :: r) = some r.reverse := by
  induction dl with
  | nil =>
    intro r
    rw [List.nil_append, stripDigitsSpace]
    have : isDigitChar ' ' = false := rfl
    rw [this]
    simp
  | cons c dl ih =>
    intro r
    rw [List.cons_append, stripDigitsSpace, if_pos (hdl c (List.mem_cons_self ..))]
    exact ih (fun c hc => hdl c (List.mem_cons_of_mem _ hc)) r

theorem strip_of_suffix_shape {pre ds : List Char} (hne : ds ≠ [])
    (hdig : ∀ c ∈ ds, isDigitChar c = true) :
    stripInternalNameSuffix (pre ++ ' ' :: (ds ++ ['#'])) = pre := by
  obtain ⟨d, restds, hrev⟩ : ∃ d restds, ds.reverse = d :: restds := by
    cases h : ds.reverse with
    | nil => exact absurd (by simpa using congrArg List.reverse h) hne
    | cons d restds => exact ⟨d, restds, rfl⟩
  have hdmem : d ∈ ds := by
    have : d ∈ ds.reverse := hrev ▸ List.mem_cons_self ..
    simpa using this
  have hrestmem : ∀ c ∈ restds, c ∈ ds := by
    intro c hc
    have : c ∈ ds.reverse := hrev ▸ List.mem_cons_of_mem _ hc
    simpa using this
  have hsrev : (pre ++ ' ' :: (ds ++ ['#'])).reverse
      = '#' :: d :: (restds ++ ' ' :: pre.reverse) := by
    simp [List.reverse_append, hrev]
  have hlen : 3 ≤ (pre ++ ' ' :: (ds ++ ['#'])).length := by
    have : 1 ≤ ds.length := by
      cases ds with
      | nil => exact absurd rfl hne
      | cons a l => simp
    simp
    omega
  unfold stripInternalNameSuffix
  rw [hsrev]
  simp only
  rw [if_pos ⟨trivial, hlen, hdig d hdmem⟩,
    stripDigitsSpace_digits (fun c hc => hdig c (hrestmem c hc)) pre.reverse]
  simp

theorem stripDigitsSpace_inv {l p : List Char} (h : stripDigitsSpace l = some p) :
    ∃ dl, (∀ c ∈ dl, isDigitChar c = true) ∧ l = dl ++ ' ' :: p.reverse := by
  induction l generalizing p with
  | nil => rw [stripDigitsSpace] at h; exact absurd h (by simp)
  | cons c rest ih =>
    rw [stripDigitsSpace] at h
    by_cases hd : isDigitChar c
    · rw [if_pos hd] at h
      obtain ⟨dl, hdl, hrest⟩ := ih h
      refine ⟨c :: dl, ?_, by rw [List.cons_append, ← hrest]⟩
      intro x hx
      rcases List.mem_cons.mp hx with hx | hx
      · subst hx; exact hd
      · exact hdl x hx
    · rw [if_neg hd] at h
      by_cases hsp : c = ' '
      · rw [if_pos hsp] at h
        injection h with h
        subst hsp
        refine ⟨[], by simp, ?_⟩
        rw [← h]
        simp
      · rw [if_neg hsp] at h
        exact absurd h (by simp)

theorem strip_shape_of_ne {s : List Char} (h : stripInternalNameSuffix s ≠ s) :
    ∃ pre ds, ds ≠ [] ∧ (∀ c ∈ ds, isDigitChar c = true) ∧
      s = pre ++ ' ' :: (ds ++ ['#']) ∧ stripInternalNameSuffix s = pre := by
  rw [stripInternalNameSuffix] at h
  split at h
  · rename_i c d rest heq
    by_cases hcond : c = '#' ∧ 3 ≤ s.length ∧ isDigitChar d
    · rw [if_pos hcond] at h
      cases hsds : stripDigitsSpace rest with
      | none => rw [hsds] at h; exact absurd rfl h
      | some p =>
        obtain ⟨dl, hdl, hrest⟩ := stripDigitsSpace_inv hsds
        refine ⟨p, dl.reverse ++ [d], by simp, ?_, ?_, ?_⟩
        · intro x hx
          rcases List.mem_append.mp hx with hx | hx
          · exact hdl x (by simpa using hx)
          · simp at hx
            subst hx
            exact hcond.2.2
        · have hs : s = s.reverse.reverse := by simp
          rw [hs, heq, hrest, hcond.1]
          simp [List.reverse_append]
        · rw [stripInternalNameSuffix, heq]
          simp only
          rw [if_pos hcond, hsds]
    · rw [if_neg hcond] at h
      exact absurd rfl h
  · exact absurd rfl h

/-! #### Injectivity of the derivation for well-behaved request sequences -/

theorem nmLookup_bump_self : ∀ (m : NameMap) (key : List Char),
    nmLookup (nmBump m key) key = (nmLookup m key).map (· + 1) := by
  intro m key
  induction m with
  | nil => rfl
  | cons e m ih =>
    obtain ⟨k, c⟩ := e
    rw [nmBump]
    by_cases hk : k = key
    · rw [if_pos hk, nmLookup, if_pos hk, nmLookup, if_pos hk]
      rfl
    · rw [if_neg hk, nmLookup, if_neg hk, nmLookup, if_neg hk, ih]

theorem nmLookup_bump_ne : ∀ (m : NameMap) (key k : List Char), k ≠ key →
    nmLookup (nmBump m key) k = nmLookup m k := by
  intro m key k hne
  induction m with
  | nil => rfl
  | cons e m ih =>
    obtain ⟨k', c⟩ := e
    rw [nmBump]
    by_cases hk : k' = key
    · rw [if_pos hk, nmLookup, nmLookup,
        if_neg (fun h => hne (by rw [← h]; exact hk)),
        if_neg (fun h => hne (by rw [← h]; exact hk))]
      exact ih
    · rw [if_neg hk, nmLookup, nmLookup]
      by_cases hk2 : k' = k
      · rw [if_pos hk2, if_pos hk2]
      · rw [if_neg hk2, if_neg hk2]
        exact ih

theorem strip_generated (b : List Char) (c : Nat) :
    stripInternalNameSuffix (b ++ ' ' :: (natToDecimal c ++ ['#'])) = b :=
  strip_of_suffix_shape (natToDecimal_ne_nil c) (natToDecimal_digits c)

theorem generated_ne_base {b : List Char} {c : Nat} :
    b ++ ' ' :: (natToDecimal c ++ ['#']) ≠ b := by
  intro h
  have := congrArg List.length h
  simp at this

theorem generated_inj {b b' : List Char} {c c' : Nat}
    (h : b ++ ' ' :: (natToDecimal c ++ ['#']) = b' ++ ' ' :: (natToDecimal c' ++ ['#'])) :
    b = b' ∧ c = c' := by
  have hb : b = b' := by
    have h1 := strip_generated b c
    rw [h, strip_generated b' c'] at h1
    exact h1.symm
  subst hb
  refine ⟨rfl, ?_⟩
  have h2 := List.append_cancel_left h
  injection h2 with hsp h3
  have h4 := List.append_cancel_right h3
  exact natToDecimal_injective h4

theorem deriveSeq_nodup_aux :
    ∀ (reqs : List (List Char)) (m : NameMap) (em : List (List Char)),
      (∀ r ∈ reqs, stripInternalNameSuffix (stripInternalNameSuffix r)
        = stripInternalNameSuffix r) →
      em.Nodup → (∀ o ∈ em, EmClass m o) →
      (em ++ (deriveSeq m reqs).2).Nodup := by
  intro reqs
  induction reqs with
  | nil =>
    intro m em hreqs hnd hcl
    rw [deriveSeq]
    simpa using hnd
  | cons r rs ih =>
    intro m em hreqs hnd hcl
    rw [deriveSeq]
    have hidem : stripInternalNameSuffix (stripInternalNameSuffix r)
        = stripInternalNameSuffix r := hreqs r (List.mem_cons_self ..)
    rw [deriveUniqueInternalName]
    cases hlook : nmLookup m (stripInternalNameSuffix r) with
    | none =>
      simp only
      -- the fresh base is new: it is not an already-recorded base and has no
      -- strippable suffix, while every generated name has one
      have hnotmem : stripInternalNameSuffix r ∉ em := by
        intro hmem
        rcases hcl _ hmem with ⟨-, hlk⟩ | ⟨b, c, cb, hb, hc1, -, hform⟩
        · exact hlk hlook
        · have h1 := strip_generated b c
          rw [← hform, hidem] at h1
          rw [h1] at hform
          exact generated_ne_base hform.symm
      have hcl' : ∀ o ∈ em ++ [stripInternalNameSuffix r],
          EmClass ((stripInternalNameSuffix r, 0) :: m) o := by
        intro o hmem
        rcases List.mem_append.mp hmem with hmem | hmem
        · rcases hcl o hmem with ⟨hstr, hlk⟩ | ⟨b, c, cb, hb, hc1, hcb, hform⟩
          · left
            refine ⟨hstr, ?_⟩
            rw [nmLookup]
            by_cases ho : stripInternalNameSuffix r = o
            · rw [if_pos ho]
              simp
            · rw [if_neg ho]
              exact hlk
          · right
            refine ⟨b, c, cb, ?_, hc1, hcb, hform⟩
            rw [nmLookup]
            by_cases hbo : stripInternalNameSuffix r = b
            · rw [← hbo] at hb
              rw [hb] at hlook
              exact absurd hlook (by simp)
            · rw [if_neg hbo]
              exact hb
        · simp at hmem
          subst hmem
          left
          refine ⟨hidem, ?_⟩
          rw [nmLookup, if_pos rfl]
          simp
      have hnd' : (em ++ [stripInternalNameSuffix r]).Nodup := by
        rw [List.nodup_append]
        exact ⟨hnd, List.nodup_singleton _, by
          intro a ha hb
          simp at hb
          subst hb
          exact hnotmem ha⟩
      have := ih ((stripInternalNameSuffix r, 0) :: m) (em ++ [stripInternalNameSuffix r])
        (fun x hx => hreqs x (List.mem_cons_of_mem _ hx)) hnd' hcl'
      rwa [List.append_assoc, List.singleton_append] at this
    | some cb =>
      simp only
      have hnewform : EmClass (nmBump m (stripInternalNameSuffix r))
          (stripInternalNameSuffix r ++ ' ' :: (natToDecimal (cb + 1) ++ ['#'])) := by
        right
        refine ⟨stripInternalNameSuffix r, cb + 1, cb + 1, ?_, by omega, by omega, rfl⟩
        rw [nmLookup_bump_self, hlook]
        rfl
      have hnotmem : (stripInternalNameSuffix r ++ ' ' :: (natToDecimal (cb + 1) ++ ['#']))
          ∉ em := by
        intro hmem
        rcases hcl _ hmem with ⟨hstr, -⟩ | ⟨b, c, cb', hb, hc1, hcb, hform⟩
        · have h1 : stripInternalNameSuffix (stripInternalNameSuffix r ++ ' ' ::
              (natToDecimal (cb + 1) ++ ['#'])) = stripInternalNameSuffix r :=
            strip_generated (stripInternalNameSuffix r) (cb + 1)
          rw [hstr] at h1
          exact generated_ne_base h1
        · obtain ⟨hb1, hc2⟩ := generated_inj hform.symm
          rw [hb1] at hb
          rw [hb] at hlook
          injection hlook with hlook
          omega
      have hcl' : ∀ o ∈ em ++ [stripInternalNameSuffix r ++ ' ' ::
          (natToDecimal (cb + 1) ++ ['#'])],
          EmClass (nmBump m (stripInternalNameSuffix r)) o := by
        intro o hmem
        rcases List.mem_append.mp hmem with hmem | hmem
        · rcases hcl o hmem with ⟨hstr, hlk⟩ | ⟨b, c, cb', hb, hc1, hcb, hform⟩
          · left
            refine ⟨hstr, ?_⟩
            by_cases ho : o = stripInternalNameSuffix r
            · rw [ho, nmLookup_bump_self, hlook]
              simp
            · rw [nmLookup_bump_ne _ _ _ ho]
              exact hlk
          · right
            by_cases hbo : b = stripInternalNameSuffix r
            · rw [hbo] at hb
              rw [hb] at hlook
              injection hlook with hlook
              refine ⟨b, c, cb' + 1, ?_, hc1, by omega, hform⟩
              rw [hbo, nmLookup_bump_self, hb]
              rfl
            · refine ⟨b, c, cb', ?_, hc1, hcb, hform⟩
              rw [nmLookup_bump_ne _ _ _ hbo]
              exact hb
        · simp at hmem
          subst hmem
          exact hnewform
      have hnd' : (em ++ [stripInternalNameSuffix r ++ ' ' ::
          (natToDecimal (cb + 1) ++ ['#'])]).Nodup := by
        rw [List.nodup_append]
        exact ⟨hnd, List.nodup_singleton _, by
          intro a ha hb
          simp at hb
          subst hb
          exact hnotmem ha⟩
      have := ih (nmBump m (stripInternalNameSuffix r))
        (em ++ [stripInternalNameSuffix r ++ ' ' :: (natToDecimal (cb + 1) ++ ['#'])])
        (fun x hx => hreqs x (List.mem_cons_of_mem _ hx)) hnd' hcl'
      rwa [List.append_assoc, List.singleton_append] at this

/-- Amended injectivity: no duplicates, provided no request strips to a base
that itself still carries the `" <digits>#"` shape. -/
theorem deriveSeq_nodup {reqs : List (List Char)}
    (hreqs : ∀ r ∈ reqs, stripInternalNameSuffix (stripInternalNameSuffix r)
      = stripInternalNameSuffix r) :
    ((deriveSeq [] reqs).2).Nodup := by
  have := deriveSeq_nodup_aux reqs [] [] hreqs (by simp) (by simp)
  simpa using this

theorem litLookup_mem : ∀ {l : List (Nat × Nat)} {k v : Nat},
    litLookup l k = some v → (k, v) ∈ l := by
  intro l
  induction l with
  | nil => intro k v h; rw [litLookup] at h; exact absurd h (by simp)
  | cons e t ih =>
    intro k v h
    obtain ⟨k', v'⟩ := e
    rw [litLookup] at h
    by_cases hk : k' = k
    · rw [if_pos hk] at h
      injection h with h
      rw [← hk, ← h]
      exact List.mem_cons_self ..
    · rw [if_neg hk] at h
      exact List.mem_cons_of_mem _ (ih h)

theorem wfLit_init : WfLit initLitState := by
  constructor <;> simp [initLitState]

theorem wfLit_num {s : LitState} (wf : WfLit s) (bits : Nat) :
    WfLit (getLiteralNumber s bits).1 := by
  rw [getLiteralNumber]
  cases hl : litLookup s.numbers bits with
  | some v => exact wf
  | none =>
    simp only
    constructor
    · intro e he
      rcases List.mem_cons.mp he with he | he
      · subst he; simp
      · have := wf.numIds e he
        simp
        omega
    · intro e he
      have := wf.strIds e he
      simp
      omega
    · intro e he e' he'
      rcases List.mem_cons.mp he with he | he <;>
        rcases List.mem_cons.mp he' with he' | he'
      · subst he he'
        intro
        rfl
      · subst he
        intro hid
        have := wf.numIds e' he'
        simp at hid
        omega
      · subst he'
        intro hid
        have := wf.numIds e he
        simp at hid
        omega
      · exact wf.numInj e he e' he'
    · exact wf.strInj
    · intro e he
      rcases List.mem_cons.mp he with he | he
      · subst he
        rw [litLookup, if_pos rfl]
      · rw [litLookup]
        by_cases hb : bits = e.1
        · exfalso
          have hf := wf.numFun e he
          rw [← hb] at hf
          rw [hf] at hl
          simp at hl
        · rw [if_neg hb]
          exact wf.numFun e he
    · exact wf.strFun

theorem wfLit_str {s : LitState} (wf : WfLit s) (ident : Nat) :
    WfLit (getLiteralString s ident).1 := by
  rw [getLiteralString]
  cases hl : litLookup s.strings ident with
  | some v => exact wf
  | none =>
    simp only
    constructor
    · intro e he
      have := wf.numIds e he
      simp
      omega
    · intro e he
      rcases List.mem_cons.mp he with he | he
      · subst he; simp
      · have := wf.strIds e he
        simp
        omega
    · exact wf.numInj
    · intro e he e' he'
      rcases List.mem_cons.mp he with he | he <;>
        rcases List.mem_cons.mp he' with he' | he'
      · subst he he'
        intro
        rfl
      · subst he
        intro hid
        have := wf.strIds e' he'
        simp at hid
        omega
      · subst he'
        intro hid
        have := wf.strIds e he
        simp at hid
        omega
      · exact wf.strInj e he e' he'
    · exact wf.numFun
    · intro e he
      rcases List.mem_cons.mp he with he | he
      · subst he
        rw [litLookup, if_pos rfl]
      · rw [litLookup]
        by_cases hb : ident = e.1
        · exfalso
          have hf := wf.strFun e he
          rw [← hb] at hf
          rw [hf] at hl
          simp at hl
        · rw [if_neg hb]
          exact wf.strFun e he

theorem wfLit_reachable {s : LitState} (h : LitReachable s) : WfLit s := by
  induction h with
  | init => exact wfLit_init
  | num bits _ ih => exact wfLit_num ih bits
  | str ident _ ih => exact wfLit_str ih ident

theorem getLiteralNumber_pair {s : LitState} (wf : WfLit s) (x y : Nat) :
    (getLiteralNumber (getLiteralNumber s x).1 y).2 = (getLiteralNumber s x).2 ↔ y = x := by
  cases hx : litLookup s.numbers x with
  | some a =>
    have h1 : getLiteralNumber s x = (s, a) := by rw [getLiteralNumber, hx]
    rw [h1]
    cases hy : litLookup s.numbers y with
    | some b =>
      have h2 : getLiteralNumber s y = (s, b) := by rw [getLiteralNumber, hy]
      rw [h2]
      show b = a ↔ y = x
      constructor
      · intro hab
        subst hab
        exact wf.numInj _ (litLookup_mem hy) _ (litLookup_mem hx) rfl
      · intro hxy
        subst hxy
        rw [hx] at hy
        injection hy with hy
        exact hy.symm
    | none =>
      have h2 : getLiteralNumber s y =
          ({ s with numbers := (y, s.nextId) :: s.numbers, nextId := s.nextId + 1 },
            s.nextId) := by rw [getLiteralNumber, hy]
      rw [h2]
      show s.nextId = a ↔ y = x
      have ha := wf.numIds _ (litLookup_mem hx)
      simp only at ha
      constructor
      · intro hab
        omega
      · intro hxy
        subst hxy
        rw [hx] at hy
        exact absurd hy (by simp)
  | none =>
    have h1 : getLiteralNumber s x =
        ({ s with numbers := (x, s.nextId) :: s.numbers, nextId := s.nextId + 1 },
          s.nextId) := by rw [getLiteralNumber, hx]
    rw [h1]
    by_cases hxy : y = x
    · subst hxy
      simp [getLiteralNumber, litLookup]
    · have htail : litLookup ((y, s.nextId) :: s.numbers).tail y = litLookup s.numbers y := rfl
      have hstep : litLookup ((x, s.nextId) :: s.numbers) y = litLookup s.numbers y := by
        rw [litLookup, if_neg (fun h => hxy h.symm)]
      cases hy : litLookup s.numbers y with
      | some b =>
        have h2 : getLiteralNumber
            ({ s with numbers := (x, s.nextId) :: s.numbers, nextId := s.nextId + 1 }) y =
            (({ s with numbers := (x, s.nextId) :: s.numbers, nextId := s.nextId + 1 }), b) := by
          rw [getLiteralNumber]
          show (match litLookup ((x, s.nextId) :: s.numbers) y with
            | some v => (_, v)
            | none => _) = _
          rw [hstep, hy]
        rw [h2]
        show b = s.nextId ↔ y = x
        have hb := wf.numIds _ (litLookup_mem hy)
        simp only at hb
        constructor
        · intro hab
          omega
        · intro h
          exact absurd h hxy
      | none =>
        have h2 : (getLiteralNumber
            ({ s with numbers := (x, s.nextId) :: s.numbers, nextId := s.nextId + 1 }) y).2 =
            s.nextId + 1 := by
          rw [getLiteralNumber]
          show (match litLookup ((x, s.nextId) :: s.numbers) y with
            | some v => (_, v)
            | none => _).2 = _
          rw [hstep, hy]
        rw [h2]
        show s.nextId + 1 = s.nextId ↔ y = x
        constructor
        · intro hab
          omega
        · intro h
          exact absurd h hxy

theorem getLiteralString_pair {s : LitState} (wf : WfLit s) (x y : Nat) :
    (getLiteralString (getLiteralString s x).1 y).2 = (getLiteralString s x).2 ↔ y = x := by
  cases hx : litLookup s.strings x with
  | some a =>
    have h1 : getLiteralString s x = (s, a) := by rw [getLiteralString, hx]
    rw [h1]
    cases hy : litLookup s.strings y with
    | some b =>
      have h2 : getLiteralString s y = (s, b) := by rw [getLiteralString, hy]
      rw [h2]
      show b = a ↔ y = x
      constructor
      · intro hab
        subst hab
        exact wf.strInj _ (litLookup_mem hy) _ (litLookup_mem hx) rfl
      · intro hxy
        subst hxy
        rw [hx] at hy
        injection hy with hy
        exact hy.symm
    | none =>
      have h2 : getLiteralString s y =
          ({ s with strings := (y, s.nextId) :: s.strings, nextId := s.nextId + 1 },
            s.nextId) := by rw [getLiteralString, hy]
      rw [h2]
      show s.nextId = a ↔ y = x
      have ha := wf.strIds _ (litLookup_mem hx)
      simp only at ha
      constructor
      · intro hab
        omega
      · intro hxy
        subst hxy
        rw [hx] at hy
        exact absurd hy (by simp)
  | none =>
    have h1 : getLiteralString s x =
        ({ s with strings := (x, s.nextId) :: s.strings, nextId := s.nextId + 1 },
          s.nextId) := by rw [getLiteralString, hx]
    rw [h1]
    by_cases hxy : y = x
    · subst hxy
      simp [getLiteralString, litLookup]
    · have hstep : litLookup ((x, s.nextId) :: s.strings) y = litLookup s.strings y := by
        rw [litLookup, if_neg (fun h => hxy h.symm)]
      cases hy : litLookup s.strings y with
      | some b =>
        have h2 : getLiteralString
            ({ s with strings := (x, s.nextId) :: s.strings, nextId := s.nextId + 1 }) y =
            (({ s with strings := (x, s.nextId) :: s.strings, nextId := s.nextId + 1 }), b) := by
          rw [getLiteralString]
          show (match litLookup ((x, s.nextId) :: s.strings) y with
            | some v => (_, v)
            | none => _) = _
          rw [hstep, hy]
        rw [h2]
        show b = s.nextId ↔ y = x
        have hb := wf.strIds _ (litLookup_mem hy)
        simp only at hb
        constructor
        · intro hab
          omega
        · intro h
          exact absurd h hxy
      | none =>
        have h2 : (getLiteralString
            ({ s with strings := (x, s.nextId) :: s.strings, nextId := s.nextId + 1 }) y).2 =
            s.nextId + 1 := by
          rw [getLiteralString]
          show (match litLookup ((x, s.nextId) :: s.strings) y with
            | some v => (_, v)
            | none => _).2 = _
          rw [hstep, hy]
        rw [h2]
        show s.nextId + 1 = s.nextId ↔ y = x
        constructor
        · intro hab
          omega
        · intro h
          exact absurd h hxy

theorem barJoin_cons (x : List Char) (t : List (List Char)) :
    barJoin (x :: t) = x ++ barTail t := by
  induction t generalizing x with
  | nil => simp [barJoin, barTail]
  | cons y t ih =>
    rw [barJoin, barTail, ih y]

theorem typePrintGo_false (info : TypeInfo) (bm : Nat) :
    ∀ (idxs : List Nat) (acc : List Char),
      typePrintGo info bm idxs false acc
        = acc ++ barTail ((idxs.filter
            (fun i => bm.testBit i && !typeSuppressed info bm i)).map info.kindStr) := by
  intro idxs
  induction idxs with
  | nil => intro acc; simp [typePrintGo, barTail]
  | cons i is ih =>
    intro acc
    rw [typePrintGo, List.filter_cons]
    by_cases hsup : typeSuppressed info bm i
    · rw [if_pos hsup]
      have : (bm.testBit i && !typeSuppressed info bm i) = false := by
        rw [hsup]
        simp
      rw [this]
      simp only [Bool.false_eq_true, if_false]
      exact ih acc
    · rw [if_neg hsup]
      by_cases hbit : bm.testBit i
      · rw [if_pos hbit]
        have hcomb : (bm.testBit i && !typeSuppressed info bm i) = true := by
          simp [hbit, hsup]
        rw [hcomb]
        simp only [if_true]
        rw [ih]
        simp [barTail]
      · rw [if_neg hbit]
        have hcomb : (bm.testBit i && !typeSuppressed info bm i) = false := by
          simp [hbit]
        rw [hcomb]
        simp only [Bool.false_eq_true, if_false]
        exact ih acc

theorem typePrintGo_true (info : TypeInfo) (bm : Nat) :
    ∀ (idxs : List Nat),
      typePrintGo info bm idxs true []
        = barJoin ((idxs.filter
            (fun i => bm.testBit i && !typeSuppressed info bm i)).map info.kindStr) := by
  intro idxs
  induction idxs with
  | nil => simp [typePrintGo, barJoin]
  | cons i is ih =>
    rw [typePrintGo, List.filter_cons]
    by_cases hsup : typeSuppressed info bm i
    · rw [if_pos hsup]
      have : (bm.testBit i && !typeSuppressed info bm i) = false := by
        rw [hsup]
        simp
      rw [this]
      simp only [Bool.false_eq_true, if_false]
      exact ih
    · rw [if_neg hsup]
      by_cases hbit : bm.testBit i
      · rw [if_pos hbit]
        have hcomb : (bm.testBit i && !typeSuppressed info bm i) = true := by
          simp [hbit, hsup]
        rw [hcomb]
        simp only [if_true]
        rw [typePrintGo_false, List.map_cons, barJoin_cons]
        simp
      · rw [if_neg hbit]
        have hcomb : (bm.testBit i && !typeSuppressed info bm i) = false := by
          simp [hbit]
        rw [hcomb]
        simp only [Bool.false_eq_true, if_false]
        exact ih

theorem typePrint_eq (info : TypeInfo) (bm : Nat) :
    typePrint info bm = barJoin ((printedKinds info bm).map info.kindStr) :=
  typePrintGo_true info bm (List.range info.lastType)

theorem printedKinds_or (info : TypeInfo) (a b : Nat) :
    printedKinds info (a ||| b) = (List.range info.lastType).filter
      (fun i => (a.testBit i || b.testBit i) && !typeSuppressed info (a ||| b) i) := by
  unfold printedKinds
  apply List.filter_congr
  intro i _
  rw [Nat.testBit_or]

theorem mem_adjOf {functions : List Nat} {fnUsers : Nat → List Nat}
    {instParentFn : Nat → Nat} {g f : Nat} :
    f ∈ adjOf functions fnUsers instParentFn g ↔ useEdge functions fnUsers instParentFn g f := by
  unfold adjOf useEdge
  rw [List.mem_filter]
  constructor
  · rintro ⟨hmem, hany⟩
    rw [List.any_eq_true] at hany
    obtain ⟨u, hu, hbeq⟩ := hany
    exact ⟨hmem, u, hu, beq_iff_eq.mp hbeq⟩
  · rintro ⟨hmem, u, hu, heq⟩
    refine ⟨hmem, ?_⟩
    rw [List.any_eq_true]
    exact ⟨u, hu, beq_iff_eq.2 heq⟩

theorem mem_svInsert {wl : List Nat} {x y : Nat} :
    y ∈ svInsert wl x ↔ y ∈ wl ∨ y = x := by
  unfold svInsert
  by_cases hx : x ∈ wl
  · rw [if_pos hx]
    constructor
    · exact fun h => Or.inl h
    · rintro (h | h)
      · exact h
      · exact h ▸ hx
  · rw [if_neg hx]
    rw [List.mem_cons]
    tauto

theorem mem_svInsertAll {xs : List Nat} :
    ∀ {wl : List Nat} {y : Nat}, y ∈ svInsertAll wl xs ↔ y ∈ wl ∨ y ∈ xs := by
  induction xs with
  | nil => intro wl y; simp [svInsertAll]
  | cons x xs ih =>
    intro wl y
    show y ∈ svInsertAll (svInsert wl x) xs ↔ _
    rw [ih, mem_svInsert]
    simp [List.mem_cons]
    tauto

theorem nodup_svInsert {wl : List Nat} (h : wl.Nodup) (x : Nat) : (svInsert wl x).Nodup := by
  unfold svInsert
  by_cases hx : x ∈ wl
  · rwa [if_pos hx]
  · rw [if_neg hx]
    exact List.Nodup.cons hx h

theorem nodup_svInsertAll {xs : List Nat} :
    ∀ {wl : List Nat}, wl.Nodup → (svInsertAll wl xs).Nodup := by
  induction xs with
  | nil => intro wl h; exact h
  | cons x xs ih =>
    intro wl h
    exact ih (nodup_svInsert h x)

theorem nodup_length_le_dedup {l c : List Nat} (hnd : l.Nodup) (hsub : ∀ x ∈ l, x ∈ c) :
    l.length ≤ c.dedup.length := by
  have h2 : l.toFinset ⊆ c.toFinset := by
    intro x hx
    rw [List.mem_toFinset] at hx
    rw [List.mem_toFinset]
    exact hsub x hx
  have h3 := Finset.card_le_card h2
  rw [List.card_toFinset, List.card_toFinset, hnd.dedup] at h3
  exact h3

theorem reach_absorb {adj : Nat → List Nat} {result wl : List Nat}
    (hclosed : ∀ r ∈ result, ∀ t ∈ adj r, t ∈ result ∨ t ∈ wl) {c x : Nat}
    (hr : Relation.ReflTransGen (fun a b => b ∈ adj a) c x) (hc : c ∈ result) :
    x ∈ result ∨ ∃ y ∈ wl, Relation.ReflTransGen (fun a b => b ∈ adj a) y x := by
  induction hr using Relation.ReflTransGen.head_induction_on with
  | refl => exact Or.inl hc
  | head hstep htail ih =>
    rename_i z t
    rcases hclosed z hc t hstep with ht | ht
    · exact ih ht
    · exact Or.inr ⟨t, ht, htail⟩

theorem segLoop_spec (adj : Nat → List Nat) (cand : List Nat)
    (hadj : ∀ g t, t ∈ adj g → t ∈ cand) :
    ∀ (fuel : Nat) (result wl : List Nat),
      result.Nodup → wl.Nodup →
      (∀ x ∈ result, x ∈ cand) → (∀ x ∈ wl, x ∈ cand) →
      (∀ r ∈ result, ∀ t ∈ adj r, t ∈ result ∨ t ∈ wl) →
      (cand.dedup.length - result.length) * (cand.dedup.length + 1) + wl.length ≤ fuel →
      ∀ x, x ∈ segLoop adj fuel result wl ↔
        (x ∈ result ∨ ∃ y ∈ wl, Relation.ReflTransGen (fun a b => b ∈ adj a) y x) := by
  intro fuel
  induction fuel with
  | zero =>
    intro result wl hndr hndw hrc hwc hclosed hfuel x
    cases wl with
    | nil =>
      show x ∈ result ↔ _
      constructor
      · exact fun h => Or.inl h
      · rintro (h | ⟨y, hy, -⟩)
        · exact h
        · simp at hy
    | cons cur wl' =>
      exfalso
      simp at hfuel
  | succ fuel ih =>
    intro result wl hndr hndw hrc hwc hclosed hfuel x
    cases wl with
    | nil =>
      show x ∈ result ↔ _
      constructor
      · exact fun h => Or.inl h
      · rintro (h | ⟨y, hy, -⟩)
        · exact h
        · simp at hy
    | cons cur wl' =>
      show x ∈ (if cur ∈ result then segLoop adj fuel result wl'
        else segLoop adj fuel (result ++ [cur]) (svInsertAll wl' (adj cur))) ↔ _
      by_cases hcur : cur ∈ result
      · rw [if_pos hcur]
        have hclosed' : ∀ r ∈ result, ∀ t ∈ adj r, t ∈ result ∨ t ∈ wl' := by
          intro r hrr t ht
          rcases hclosed r hrr t ht with h | h
          · exact Or.inl h
          · rcases List.mem_cons.mp h with h | h
            · exact Or.inl (h ▸ hcur)
            · exact Or.inr h
        rw [ih result wl' hndr (List.Nodup.of_cons hndw) hrc
          (fun z hz => hwc z (List.mem_cons_of_mem _ hz)) hclosed'
          (by simp at hfuel; omega) x]
        constructor
        · rintro (h | ⟨y, hy, hr⟩)
          · exact Or.inl h
          · exact Or.inr ⟨y, List.mem_cons_of_mem _ hy, hr⟩
        · rintro (h | ⟨y, hy, hr⟩)
          · exact Or.inl h
          · rcases List.mem_cons.mp hy with hy | hy
            · exact reach_absorb hclosed' (hy ▸ hr) hcur
            · exact Or.inr ⟨y, hy, hr⟩
      · rw [if_neg hcur]
        have hcurc : cur ∈ cand := hwc cur (List.mem_cons_self ..)
        have hndr' : (result ++ [cur]).Nodup := by
          rw [List.nodup_append]
          exact ⟨hndr, List.nodup_singleton _, by
            intro a ha hb
            simp at hb
            subst hb
            exact hcur ha⟩
        have hndw' : (svInsertAll wl' (adj cur)).Nodup :=
          nodup_svInsertAll (List.Nodup.of_cons hndw)
        have hrc' : ∀ z ∈ result ++ [cur], z ∈ cand := by
          intro z hz
          rcases List.mem_append.mp hz with hz | hz
          · exact hrc z hz
          · simp at hz
            exact hz ▸ hcurc
        have hwc' : ∀ z ∈ svInsertAll wl' (adj cur), z ∈ cand := by
          intro z hz
          rcases mem_svInsertAll.mp hz with hz | hz
          · exact hwc z (List.mem_cons_of_mem _ hz)
          · exact hadj cur z hz
        have hclosed' : ∀ r ∈ result ++ [cur], ∀ t ∈ adj r,
            t ∈ result ++ [cur] ∨ t ∈ svInsertAll wl' (adj cur) := by
          intro r hrr t ht
          rcases List.mem_append.mp hrr with hrr | hrr
          · rcases hclosed r hrr t ht with h | h
            · exact Or.inl (List.mem_append.2 (Or.inl h))
            · rcases List.mem_cons.mp h with h | h
              · exact Or.inl (List.mem_append.2 (Or.inr (by simp [h])))
              · exact Or.inr (mem_svInsertAll.2 (Or.inl h))
          · simp at hrr
            subst hrr
            exact Or.inr (mem_svInsertAll.2 (Or.inr ht))
        have hrlen : result.length + 1 ≤ cand.dedup.length := by
          have h := nodup_length_le_dedup hndr' hrc'
          simpa using h
        have hwlen : (svInsertAll wl' (adj cur)).length ≤ cand.dedup.length :=
          nodup_length_le_dedup hndw' hwc'
        have hfuel' : (cand.dedup.length - (result ++ [cur]).length) *
            (cand.dedup.length + 1) + (svInsertAll wl' (adj cur)).length ≤ fuel := by
          have hsplit : (cand.dedup.length - result.length) * (cand.dedup.length + 1) =
              (cand.dedup.length - (result.length + 1)) * (cand.dedup.length + 1) +
              (cand.dedup.length + 1) := by
            have h : cand.dedup.length - result.length =
                (cand.dedup.length - (result.length + 1)) + 1 := by omega
            rw [h]
            ring
          have hlen : (result ++ [cur]).length = result.length + 1 := by simp
          rw [hlen]
          simp only [List.length_cons] at hfuel
          omega
        rw [ih (result ++ [cur]) (svInsertAll wl' (adj cur)) hndr' hndw' hrc' hwc'
          hclosed' hfuel' x]
        constructor
        · rintro (h | ⟨y, hy, hr⟩)
          · rcases List.mem_append.mp h with h | h
            · exact Or.inl h
            · simp at h
              subst h
              exact Or.inr ⟨x, List.mem_cons_self .., Relation.ReflTransGen.refl⟩
          · rcases mem_svInsertAll.mp hy with hy | hy
            · exact Or.inr ⟨y, List.mem_cons_of_mem _ hy, hr⟩
            · exact Or.inr ⟨cur, List.mem_cons_self .., Relation.ReflTransGen.head hy hr⟩
        · rintro (h | ⟨y, hy, hr⟩)
          · exact Or.inl (List.mem_append.2 (Or.inl h))
          · rcases List.mem_cons.mp hy with hy | hy
            · subst hy
              rcases Relation.ReflTransGen.cases_head hr with heq | ⟨t, hstep, htail⟩
              · exact Or.inl (List.mem_append.2 (Or.inr (by simp [heq])))
              · exact Or.inr ⟨t, mem_svInsertAll.2 (Or.inr hstep), htail⟩
            · exact Or.inr ⟨y, mem_svInsertAll.2 (Or.inl hy), hr⟩

theorem segRun_spec (adj : Nat → List Nat) (functions roots : List Nat)
    (hadj : ∀ g t, t ∈ adj g → t ∈ roots ++ functions) (hroots : roots.Nodup) (x : Nat) :
    x ∈ segLoop adj (((roots ++ functions).dedup.length + 1) *
        ((roots ++ functions).dedup.length + 1)) [] roots ↔
      ∃ y ∈ roots, Relation.ReflTransGen (fun a b => b ∈ adj a) y x := by
  rw [segLoop_spec adj (roots ++ functions) hadj _ [] roots List.nodup_nil hroots
      (by intro z hz; simp at hz) (fun z hz => List.mem_append.2 (Or.inl hz))
      (by intro r hr; simp at hr)
      (by
        have h1 : roots.length ≤ (roots ++ functions).dedup.length :=
          nodup_length_le_dedup hroots (fun z hz => List.mem_append.2 (Or.inl hz))
        have h2 : ((roots ++ functions).dedup.length + 1) *
            ((roots ++ functions).dedup.length + 1) =
            (roots ++ functions).dedup.length * ((roots ++ functions).dedup.length + 1) +
            ((roots ++ functions).dedup.length + 1) := by ring
        simp only [List.length_nil, Nat.sub_zero]
        omega) x]
  constructor
  · rintro (h | h)
    · simp at h
    · exact h
  · exact Or.inr

theorem getFunctionsInSegment_spec (functions : List Nat) (fnUsers : Nat → List Nat)
    (instParentFn : Nat → Nat) (cjsModules : List Nat) (first last : Nat) (x : Nat) :
    x ∈ getFunctionsInSegment functions fnUsers instParentFn cjsModules first last ↔
      ∃ i, first ≤ i ∧ i ≤ last ∧
        Relation.ReflTransGen (useEdge functions fnUsers instParentFn)
          ((cjsModules[i]?).getD 0) x := by
  simp only [getFunctionsInSegment]
  rw [segRun_spec (adjOf functions fnUsers instParentFn) functions
    (svInsertAll [] ((List.range' first (last + 1 - first)).map
      (fun i => (cjsModules[i]?).getD 0)))
    (by
      intro g t ht
      exact List.mem_append.2 (Or.inr (List.mem_filter.mp ht).1))
    (nodup_svInsertAll List.nodup_nil) x]
  have hRTG : ∀ y, Relation.ReflTransGen
      (fun a b => b ∈ adjOf functions fnUsers instParentFn a) y x ↔
      Relation.ReflTransGen (useEdge functions fnUsers instParentFn) y x := by
    intro y
    constructor
    · exact Relation.ReflTransGen.mono (fun a b h => mem_adjOf.mp h)
    · exact Relation.ReflTransGen.mono (fun a b h => mem_adjOf.2 h)
  have hmem : ∀ y, y ∈ svInsertAll []
      ((List.range' first (last + 1 - first)).map (fun i => (cjsModules[i]?).getD 0)) ↔
      ∃ i, first ≤ i ∧ i ≤ last ∧ (cjsModules[i]?).getD 0 = y := by
    intro y
    rw [mem_svInsertAll]
    simp only [List.not_mem_nil, false_or]
    rw [List.mem_map]
    constructor
    · rintro ⟨i, hi, hy⟩
      rw [List.mem_range'_1] at hi
      exact ⟨i, hi.1, by omega, hy⟩
    · rintro ⟨i, h1, h2, hy⟩
      exact ⟨i, List.mem_range'_1.2 ⟨h1, by omega⟩, hy⟩
  constructor
  · rintro ⟨y, hy, hr⟩
    obtain ⟨i, h1, h2, hyy⟩ := (hmem y).mp hy
    exact ⟨i, h1, h2, hyy ▸ (hRTG y).mp hr⟩
  · rintro ⟨i, h1, h2, hr⟩
    exact ⟨_, (hmem _).2 ⟨i, h1, h2, rfl⟩, (hRTG _).2 hr⟩

/-- The transitive closure example behind the worklist characterization:
from wrapper `w0` the closed set is `{w0, w1, w2}`; from `w3` it is `{w3}`. -/
theorem getFunctionsInSegment_example :
    getFunctionsInSegment [0, 1, 2, 3] c6users c6parent [0, 1, 2, 3] 0 0 = [0, 1, 2] ∧
    getFunctionsInSegment [0, 1, 2, 3] c6users c6parent [0, 1, 2, 3] 3 3 = [3] := by
  constructor <;> rfl

/-! ### The claims -/

/-- C1: bidirectional use-def consistency (`Wf`: every non-null operand slot
`(p, j)` of `I` has `p.users[j] = I`, and every user-list entry is matched by
exactly one operand slot) is preserved by any sequence of the seven public
operand-list operations; and on a consistent state `removeUse` succeeds on any
recorded use and performs the swap-with-last removal, patching the moved
user's operand slot from `(v, lastIndex)` to `(v, removedIndex)` (the `patch`
field of `RemoveUseOut`). -/
theorem claim_C1 {s s' t : IRState} {ops : List IROp} {i0 k0 v idx : Nat}
    (wf : Wf s) (h : applyOps s ops = some s')
    (wft : Wf t) (hslot : (getOperands t i0)[k0]? = some ((some v, idx) : IRUse)) :
    Wf s' ∧ ∃ t', removeUse t v idx = some t' ∧ RemoveUseOut t t' i0 k0 v idx :=
  ⟨wf_applyOps ops wf h, removeUse_spec wft hslot⟩

theorem claim_C1_witness :
    Wf ((applyOps c1s c1ops).getD c1s) ∧
    ∃ t', removeUse c1t 0 0 = some t' ∧ RemoveUseOut c1t t' 1 0 0 0 :=
  @claim_C1 c1s ((applyOps c1s c1ops).getD c1s) c1t c1ops 1 0 0 0
    (checkWf_sound (by decide)) (by decide) (checkWf_sound (by decide)) (by decide)

/-- C2: `replaceAllUsesWith` is a no-op when the replacement is the value
itself; otherwise (on a consistent state, with a valid replacement) it
terminates with a consistent state in which the value's user list is empty and
every operand slot that held the value now holds the replacement
(`mapSubst` on every producer list), covering users that referenced the value
in several slots. -/
theorem claim_C2 {s : IRState} {v : Nat} {other : Option Nat} (wf : Wf s)
    (hvalid : ∀ w, other = some w → w < s.users.length) :
    replaceAllUsesWith s v (some v) = some s ∧
    (other ≠ some v → ∃ s', replaceAllUsesWith s v other = some s' ∧ Wf s' ∧
      getUsers s' v = [] ∧ ∀ i, producersOf s' i = mapSubst v other (producersOf s i)) := by
  constructor
  · rw [replaceAllUsesWith, if_pos rfl]
  · intro hother
    obtain ⟨s', hs', wf', hnil, -, -, hprod⟩ :=
      rauwLoop_total hother (vSlotCount s v) s wf hvalid (le_refl _)
    refine ⟨s', ?_, wf', hnil, hprod⟩
    rw [replaceAllUsesWith, if_neg hother]
    exact hs'

theorem claim_C2_witness :
    replaceAllUsesWith c2s 3 (some 3) = some c2s ∧
    (some 2 ≠ some 3 → ∃ s', replaceAllUsesWith c2s 3 (some 2) = some s' ∧ Wf s' ∧
      getUsers s' 3 = [] ∧
      ∀ i, producersOf s' i = mapSubst 3 (some 2) (producersOf c2s i)) :=
  claim_C2 (checkWf_sound (by decide))
    (fun w hw => by injection hw with h; rw [← h]; decide)

/-- C3: as stated the injectivity claim is false.  A requested name whose
stripped base still ends in the internal-suffix shape collides with a
generated name: the requests `"f"`, `"f"`, `"f 1# 2#"` yield `"f"`, `"f 1#"`,
`"f 1#"` — a duplicate. -/
theorem claim_C3_counterexample :
    ¬ ((deriveSeq [] [['f'], ['f'], ['f', ' ', '1', '#', ' ', '2', '#']]).2).Nodup := by
  decide

/-- C3 (amended): `deriveUniqueInternalName` is injective within a Module for
every request sequence whose names strip to suffix-free bases (stripping is
idempotent on each request): the list of returned internal names contains no
duplicates. -/
theorem claim_C3 {reqs : List (List Char)}
    (hreqs : ∀ r ∈ reqs, stripInternalNameSuffix (stripInternalNameSuffix r)
      = stripInternalNameSuffix r) :
    ((deriveSeq [] reqs).2).Nodup :=
  deriveSeq_nodup hreqs

theorem claim_C3_witness :
    (∀ r ∈ [['f'], ['f'], ['f', ' ', '1', '#'], ['f']],
      stripInternalNameSuffix (stripInternalNameSuffix r) = stripInternalNameSuffix r) ∧
    ((deriveSeq [] [['f'], ['f'], ['f', ' ', '1', '#'], ['f']]).2).Nodup :=
  ⟨by decide, claim_C3 (by decide)⟩

/-- C4: the strip-then-count algorithm.  The suffix is stripped exactly when
the tail has the shape space–digits–hash (both directions are stated); a
fresh stripped base is inserted with counter `0` and returned unchanged; a
known base bumps its counter `c` and returns `base ++ " " ++ (c+1) ++ "#"`;
and concretely the requests `"f"`, `"f"`, `"f 1#"`, `"f"` yield `"f"`,
`"f 1#"`, `"f 2#"`, `"f 3#"`, while `"f 3#"` on a fresh Module yields
`"f"`. -/
theorem claim_C4 :
    (∀ pre ds : List Char, ds ≠ [] → (∀ c ∈ ds, isDigitChar c = true) →
      stripInternalNameSuffix (pre ++ ' ' :: (ds ++ ['#'])) = pre) ∧
    (∀ s : List Char, stripInternalNameSuffix s ≠ s →
      ∃ pre ds, ds ≠ [] ∧ (∀ c ∈ ds, isDigitChar c = true) ∧
        s = pre ++ ' ' :: (ds ++ ['#']) ∧ stripInternalNameSuffix s = pre) ∧
    (∀ (m : NameMap) (o : List Char), nmLookup m (stripInternalNameSuffix o) = none →
      deriveUniqueInternalName m o =
        ((stripInternalNameSuffix o, 0) :: m, stripInternalNameSuffix o)) ∧
    (∀ (m : NameMap) (o : List Char) (c : Nat),
      nmLookup m (stripInternalNameSuffix o) = some c →
      deriveUniqueInternalName m o =
        (nmBump m (stripInternalNameSuffix o),
          stripInternalNameSuffix o ++ ' ' :: (natToDecimal (c + 1) ++ ['#']))) ∧
    (deriveSeq [] [['f'], ['f'], ['f', ' ', '1', '#'], ['f']]).2 =
      [['f'], ['f', ' ', '1', '#'], ['f', ' ', '2', '#'], ['f', ' ', '3', '#']] ∧
    (deriveUniqueInternalName [] ['f', ' ', '3', '#']).2 = ['f'] := by
  refine ⟨fun pre ds hne hdig => strip_of_suffix_shape hne hdig,
    fun s h => strip_shape_of_ne h, ?_, ?_, by decide, by decide⟩
  · intro m o h
    rw [deriveUniqueInternalName, h]
  · intro m o c h
    rw [deriveUniqueInternalName, h]

theorem claim_C4_witness :
    stripInternalNameSuffix (['g'] ++ ' ' :: (['7'] ++ ['#'])) = ['g'] ∧
    deriveUniqueInternalName [] ['g'] =
      (([(stripInternalNameSuffix ['g'], 0)] : NameMap), stripInternalNameSuffix ['g']) :=
  ⟨claim_C4.1 ['g'] ['7'] (by decide) (by decide),
   claim_C4.2.2.1 [] ['g'] rfl⟩

/-- C5: cascade erase of a BasicBlock severs every incoming reference.  If
`drainBlock` (head-first `replaceAllUsesWith ⊥` then operand release, finally
the check that the block has no users) completes on a consistent state, the
result is consistent, the block's user list is empty, and no operand slot
anywhere references the block or any erased instruction. -/
theorem claim_C5 {bb : Nat} {insts : List Nat} {s s' : IRState} (wf : Wf s)
    (h : drainBlock bb insts s = some s') :
    Wf s' ∧ getUsers s' bb = [] ∧ NoRef s' bb ∧ ∀ i ∈ insts, NoRef s' i := by
  obtain ⟨wf', hbb, hin⟩ := drainBlock_spec insts wf h
  exact ⟨wf', hbb, noRef_of_users_nil wf' hbb, hin⟩

theorem claim_C5_witness :
    Wf ((drainBlock 0 [1, 2] c5s).getD c5s) ∧
    getUsers ((drainBlock 0 [1, 2] c5s).getD c5s) 0 = [] ∧
    NoRef ((drainBlock 0 [1, 2] c5s).getD c5s) 0 ∧
    ∀ i ∈ [1, 2], NoRef ((drainBlock 0 [1, 2] c5s).getD c5s) i :=
  @claim_C5 0 [1, 2] c5s ((drainBlock 0 [1, 2] c5s).getD c5s)
    (checkWf_sound (by decide)) (by decide)

/-- C6: `getFunctionsInSegment` returns exactly the functions reachable
through the function-use graph (`useEdge`, one edge per using function) from
the CJS wrapper functions with module indices in the inclusive range, and
membership in the result depends only on which functions exist, not on any
list order: inputs presenting the same function set give the same result
set. -/
theorem claim_C6 (functions : List Nat) (fnUsers : Nat → List Nat)
    (instParentFn : Nat → Nat) (cjsModules : List Nat) (first last : Nat) (x : Nat) :
    (x ∈ getFunctionsInSegment functions fnUsers instParentFn cjsModules first last ↔
      ∃ i, first ≤ i ∧ i ≤ last ∧
        Relation.ReflTransGen (useEdge functions fnUsers instParentFn)
          ((cjsModules[i]?).getD 0) x) ∧
    (∀ functions' : List Nat, (∀ f, f ∈ functions' ↔ f ∈ functions) →
      (x ∈ getFunctionsInSegment functions' fnUsers instParentFn cjsModules first last ↔
       x ∈ getFunctionsInSegment functions fnUsers instParentFn cjsModules first last)) := by
  refine ⟨getFunctionsInSegment_spec functions fnUsers instParentFn cjsModules first last x,
    ?_⟩
  intro functions' hf
  rw [getFunctionsInSegment_spec, getFunctionsInSegment_spec]
  have hedge : ∀ g f, useEdge functions' fnUsers instParentFn g f ↔
      useEdge functions fnUsers instParentFn g f := by
    intro g f
    unfold useEdge
    rw [hf f]
  constructor
  · rintro ⟨i, h1, h2, hr⟩
    exact ⟨i, h1, h2, Relation.ReflTransGen.mono (fun a b h => (hedge a b).mp h) hr⟩
  · rintro ⟨i, h1, h2, hr⟩
    exact ⟨i, h1, h2, Relation.ReflTransGen.mono (fun a b h => (hedge a b).2 h) hr⟩

/-- C7: literal interning.  On any Module literal-table state reachable from
the initial one, two `getLiteralNumber` calls yield the same object exactly
when the doubles are bitwise equal (so `-0.0` and `+0.0` differ), two
`getLiteralString` calls yield the same object exactly when the identifiers
coincide, and `getLiteralBool` returns the two fixed Module-resident
objects. -/
theorem claim_C7 {s : LitState} (h : LitReachable s) (x y a b : Nat) :
    ((getLiteralNumber (getLiteralNumber s x).1 y).2 = (getLiteralNumber s x).2 ↔ y = x) ∧
    ((getLiteralString (getLiteralString s a).1 b).2 = (getLiteralString s a).2 ↔ b = a) ∧
    getLiteralBool true = literalTrueId ∧ getLiteralBool false = literalFalseId :=
  ⟨getLiteralNumber_pair (wfLit_reachable h) x y,
   getLiteralString_pair (wfLit_reachable h) a b, rfl, rfl⟩

theorem claim_C7_witness :
    ((getLiteralNumber (getLiteralNumber initLitState (2 ^ 63)).1 0).2 =
        (getLiteralNumber initLitState (2 ^ 63)).2 ↔ (0 : Nat) = 2 ^ 63) ∧
    ((getLiteralString (getLiteralString initLitState 7).1 8).2 =
        (getLiteralString initLitState 7).2 ↔ (8 : Nat) = 7) ∧
    getLiteralBool true = literalTrueId ∧ getLiteralBool false = literalFalseId :=
  claim_C7 LitReachable.init (2 ^ 63) 0 7 8

/-- C8: `Type::print` emits exactly the names of the set kind bits, separated
by `"|"`, in enumeration order, with the Object kind suppressed whenever the
Closure or RegExp bit is set; on a union (bitwise or) the printed kinds are
exactly those whose bit is set in either argument, modulo the same
suppression. -/
theorem claim_C8 (info : TypeInfo) (bm a b : Nat) :
    typePrint info bm = barJoin ((printedKinds info bm).map info.kindStr) ∧
    printedKinds info bm = (List.range info.lastType).filter
      (fun i => bm.testBit i && !typeSuppressed info bm i) ∧
    printedKinds info (a ||| b) = (List.range info.lastType).filter
      (fun i => (a.testBit i || b.testBit i) && !typeSuppressed info (a ||| b) i) :=
  ⟨typePrint_eq info bm, rfl, printedKinds_or info a b⟩

/-- C9: a requested name that is exactly the suffix shape (space, digits,
hash — e.g. `" 7#"`) strips to the empty string, and deriving it on a Module
with no prior derivations returns the empty identifier. -/
theorem claim_C9 :
    stripInternalNameSuffix [' ', '7', '#'] = [] ∧
    (∀ ds : List Char, ds ≠ [] → (∀ c ∈ ds, isDigitChar c = true) →
      stripInternalNameSuffix (' ' :: (ds ++ ['#'])) = []) ∧
    (deriveUniqueInternalName [] [' ', '7', '#']).2 = [] := by
  refine ⟨by decide, ?_, by decide⟩
  intro ds hne hdig
  have h := @strip_of_suffix_shape [] ds hne hdig
  simpa using h

theorem claim_C9_witness :
    stripInternalNameSuffix (' ' :: (['4', '2'] ++ ['#'])) = [] :=
  claim_C9.2.1 ['4', '2'] (by decide) (by decide)

/-- C10: `Instruction::moveBefore` with the instruction itself as the
insertion point is a no-op: the whole CFG state — every block's instruction
list, the parent map, and the use-def core — is unchanged. -/
theorem claim_C10 (s : CFGState) (inst : Nat) : moveBefore s inst inst = s := by
  rw [moveBefore, if_pos rfl]
